import Mathlib

/-!
# Pattern: prototype / composite / memento scene editor

A shallow embedding of `Project1/Project1/Source.cpp`.

The C++ program manipulates `Shape*` pointers into the free store.  The
embedding makes the free store explicit: a `Heap` is a list of cells, an
address is an index into it, `new` appends a cell, `delete` marks a cell as
released, and every access through a pointer that does not designate a
live object is undefined behaviour, modelled by `none`.  `std::cout` is the
list of the lines written so far (each `cout << ... << endl` appends one
line).  Recursion through the object graph is bounded by a fuel argument,
since the graph on the free store need not be a tree.
-/

namespace Pattern

/-! ## The free store -/

/-- An address on the free store: the value of a `Shape*`. -/
abbrev Addr := Nat

/-- A shape object on the free store, by dynamic type.  `Circle` and `Square`
have no data members; a `CompositeShape` holds `vector<Shape*> shapes_`. -/
inductive Obj where
  | circle
  | square
  | composite (shapes_ : List Addr)
deriving DecidableEq, Repr

/-- The free store.  `none` is a cell whose object has been deleted. -/
structure Heap where
  cells : List (Option Obj)
deriving DecidableEq, Repr

/-- Number of cells ever allocated; the next `new` returns this address. -/
def Heap.size (h : Heap) : Nat := h.cells.length

/-- Dereference a pointer: the live object at `a`, if any. -/
def Heap.get (h : Heap) (a : Addr) : Option Obj :=
  match h.cells[a]? with
  | some (some o) => some o
  | _ => none

/-- The expression `new T(...)`: a fresh cell at a fresh address. -/
def Heap.alloc (h : Heap) (o : Obj) : Heap × Addr :=
  (⟨h.cells ++ [some o]⟩, h.cells.length)

/-- Overwrite the object stored at `a`. -/
def Heap.set (h : Heap) (a : Addr) (o : Obj) : Heap :=
  ⟨h.cells.set a (some o)⟩

/-- The expression `delete p`.  The destructors of all three classes are
trivial (the implicit `~CompositeShape` destroys the vector of pointers, not
the pointees), so only the cell of `p` is released.  Deleting something that
is not a live object is undefined. -/
def Heap.delete (h : Heap) (a : Addr) : Option Heap :=
  match h.get a with
  | some _ => some ⟨h.cells.set a none⟩
  | none => none

/-! ## Shapes -/

/-- Source `CompositeShape::addShape`: `shapes_.push_back(shape)` on the composite
at address `self`. -/
def CompositeShape.addShape (h : Heap) (self : Addr) (shape : Addr) : Option Heap :=
  match h.get self with
  | some (.composite shapes_) => some (h.set self (.composite (shapes_ ++ [shape])))
  | _ => none

/-- Source `CompositeShape::removeShape`: `find_if` locates the first element equal
to `shape`; when there is one, it is deleted and erased from `shapes_`. -/
def CompositeShape.removeShape (h : Heap) (self : Addr) (shape : Addr) : Option Heap :=
  match h.get self with
  | some (.composite shapes_) =>
    let it := shapes_.indexOf shape
    if it < shapes_.length then
      match h.delete (shapes_.getD it 0) with
      | none => none
      | some h1 =>
        match h1.get self with
        | some (.composite shapes1) => some (h1.set self (.composite (shapes1.eraseIdx it)))
        | _ => none
    else some h
  | _ => none

/-- Source `CompositeShape::getShapes`: a copy of the vector of child pointers. -/
def CompositeShape.getShapes (h : Heap) (self : Addr) : Option (List Addr) :=
  match h.get self with
  | some (.composite shapes_) => some shapes_
  | _ => none

/-- The loop `for (shape : shapes_) clone->addShape(shape->clone());` of
`CompositeShape::clone`, with `cl` the virtual call `shape->clone()` and `c`
the composite under construction. -/
def cloneLoop (cl : Heap → Addr → Option (Heap × Addr)) (c : Addr) :
    List Addr → Heap → Option Heap
  | [], h => some h
  | shape :: rest, h =>
    match cl h shape with
    | none => none
    | some (h1, copy) =>
      match CompositeShape.addShape h1 c copy with
      | none => none
      | some h2 => cloneLoop cl c rest h2

/-- The virtual call `p->clone()`, dispatched on the dynamic type of `*p`:
`Circle::clone` and `Square::clone` are `new T(*this)`; `CompositeShape::clone`
makes `new CompositeShape()` and then adds a clone of every child in order. -/
def Shape.clone : Nat → Heap → Addr → Option (Heap × Addr)
  | 0, _, _ => none
  | fuel + 1, h, p =>
    match h.get p with
    | none => none
    | some .circle => some (h.alloc .circle)
    | some .square => some (h.alloc .square)
    | some (.composite shapes_) =>
      match cloneLoop (Shape.clone fuel) (h.alloc (.composite [])).2 shapes_
          (h.alloc (.composite [])).1 with
      | none => none
      | some h1 => some (h1, (h.alloc (.composite [])).2)

/-- The three `cout << ... << endl` statements of `Circle::draw`. -/
def Circle.lines : List String := [" - -", "-   -", " - -"]

/-- The four `cout << ... << endl` statements of `Square::draw`. -/
def Square.lines : List String := ["------", "|    |", "|    |", "------"]

/-- A loop `for (shape : shapes_) shape->draw();`, with `dr` the virtual call
and the output stream threaded through. -/
def drawLoop (dr : Addr → List String → Option (List String)) :
    List Addr → List String → Option (List String)
  | [], out => some out
  | shape :: rest, out =>
    match dr shape out with
    | none => none
    | some out1 => drawLoop dr rest out1

/-- The virtual call `p->draw()`: `out` is what `cout` holds before the call,
the result what it holds after. -/
def Shape.draw : Nat → Heap → Addr → List String → Option (List String)
  | 0, _, _, _ => none
  | fuel + 1, h, p, out =>
    match h.get p with
    | none => none
    | some .circle => some (out ++ Circle.lines)
    | some .square => some (out ++ Square.lines)
    | some (.composite shapes_) => drawLoop (Shape.draw fuel h) shapes_ out

/-! ## Structure of a shape -/

/-- The structure of a shape: its variant and, for a composite, the
structures of its children in order. -/
inductive ShapeTree where
  | circle
  | square
  | composite (children : List ShapeTree)

/-- All results of a list of partial computations, when every one succeeded. -/
def allSome {α : Type} : List (Option α) → Option (List α)
  | [] => some []
  | none :: _ => none
  | some x :: rest =>
    match allSome rest with
    | none => none
    | some xs => some (x :: xs)

/-- The structure of the shape at address `p`: defined when everything
reachable from `p` within `fuel` levels is a live object and the nesting
ends there. -/
def shapeOf : Nat → Heap → Addr → Option ShapeTree
  | 0, _, _ => none
  | fuel + 1, h, p =>
    match h.get p with
    | none => none
    | some .circle => some .circle
    | some .square => some .square
    | some (.composite shapes_) =>
      match allSome (shapes_.map (shapeOf fuel h)) with
      | none => none
      | some ts => some (.composite ts)

/-- The structures of a sequence of shapes. -/
def shapesOf (fuel : Nat) (h : Heap) (shapes : List Addr) : Option (List ShapeTree) :=
  allSome (shapes.map (shapeOf fuel h))

mutual
/-- The lines a shape of the given structure draws. -/
def ShapeTree.render : ShapeTree → List String
  | .circle => Circle.lines
  | .square => Square.lines
  | .composite children => ShapeTree.renderAll children
/-- The lines a sequence of shapes draws, one after the other. -/
def ShapeTree.renderAll : List ShapeTree → List String
  | [] => []
  | t :: ts => t.render ++ ShapeTree.renderAll ts
end

/-- Reachability through child pointers of live composites. -/
inductive Reachable (h : Heap) : Addr → Addr → Prop where
  | refl (a : Addr) : Reachable h a a
  | step {a b c : Addr} {shapes_ : List Addr} :
      h.get a = some (.composite shapes_) → b ∈ shapes_ → Reachable h b c → Reachable h a c

/-! ## Memento and Caretaker -/

/-- The class `Memento`: its constructor copies the vector of pointers it is
given (`shapes_(shapes)`), not the objects they point to. -/
structure Memento where
  shapes_ : List Addr
deriving DecidableEq, Repr

/-- Source `Memento::getShapes`: a copy of the stored vector of pointers. -/
def Memento.getShapes (self : Memento) : List Addr := self.shapes_

/-- The class `Caretaker`: `vector<Memento*> mementos_`.  A `Memento` is never
modified after construction and is owned by the caretaker alone, so it is
held here by value. -/
structure Caretaker where
  mementos_ : List Memento
deriving DecidableEq, Repr

/-- Source `Caretaker::saveState`: `mementos_.push_back(new Memento(shapes))`. -/
def Caretaker.saveState (self : Caretaker) (shapes : List Addr) : Caretaker :=
  ⟨self.mementos_ ++ [Memento.mk shapes]⟩

/-- Source `Caretaker::restoreState`: when `mementos_` is not empty, `shapes` is
assigned the vector of `mementos_.back()`, which is then popped; otherwise
nothing happens.  Returns the caretaker and `shapes` after the call. -/
def Caretaker.restoreState (self : Caretaker) (shapes : List Addr) :
    Caretaker × List Addr :=
  match self.mementos_.getLast? with
  | some memento => (⟨self.mementos_.dropLast⟩, memento.getShapes)
  | none => (self, shapes)

/-! ## SceneController -/

/-- The class `SceneController`: `vector<Shape*> shapes_`. -/
structure SceneController where
  shapes_ : List Addr
deriving DecidableEq, Repr

/-- Source `SceneController::addShape(Shape*)`: `shapes_.push_back(shape)`. -/
def SceneController.addShape (self : SceneController) (shape : Addr) : SceneController :=
  ⟨self.shapes_ ++ [shape]⟩

/-- Source `SceneController::removeShape(Shape*)`: `find_if` locates the first
element equal to `shape`; when there is one, it is deleted and erased. -/
def SceneController.removeShape (h : Heap) (self : SceneController) (shape : Addr) :
    Option (Heap × SceneController) :=
  let it := self.shapes_.indexOf shape
  if it < self.shapes_.length then
    match h.delete (self.shapes_.getD it 0) with
    | none => none
    | some h1 => some (h1, ⟨self.shapes_.eraseIdx it⟩)
  else some (h, self)

/-- Source `SceneController::drawScene`: every top-level shape is drawn in order. -/
def SceneController.drawScene (fuel : Nat) (h : Heap) (self : SceneController)
    (out : List String) : Option (List String) :=
  drawLoop (Shape.draw fuel h) self.shapes_ out

/-- The program state the menu commands act on: the free store, the
controller singleton and what has been written to `cout`. -/
structure World where
  heap : Heap
  scene : SceneController
  cout : List String
deriving DecidableEq, Repr

/-- Source `SceneController::addCircle`. -/
def SceneController.addCircle (w : World) : World :=
  ⟨(w.heap.alloc .circle).1, w.scene.addShape (w.heap.alloc .circle).2,
    w.cout ++ ["Circle added."]⟩

/-- Source `SceneController::addSquare`. -/
def SceneController.addSquare (w : World) : World :=
  ⟨(w.heap.alloc .square).1, w.scene.addShape (w.heap.alloc .square).2,
    w.cout ++ ["Square added."]⟩

/-- Source `SceneController::addCompositeShape`. -/
def SceneController.addCompositeShape (w : World) : World :=
  ⟨(w.heap.alloc (.composite [])).1, w.scene.addShape (w.heap.alloc (.composite [])).2,
    w.cout ++ ["Composite Shape created."]⟩

/-- Conversion of an `int` to `size_t` (64 bits), as the comparison
`index < shapes_.size()` performs it. -/
def toSizeT (i : Int) : Nat := (i % 2 ^ 64).toNat

/-- The line the index prompt starts; it is not terminated by `endl`, so the
message that follows completes it. -/
def indexPrompt : String := "Enter the index of the shape to delete: "

/-- Source `SceneController::removeShape()`, the menu command: `index` is the `int`
read from `cin`.  When `index >= 0 && index < shapes_.size()` the shape
`shapes_[index]` is handed to `removeShape(Shape*)`; otherwise the invalid
index is reported. -/
def SceneController.removeShapeAt (w : World) (index : Int) : Option World :=
  if 0 ≤ index ∧ toSizeT index < w.scene.shapes_.length then
    match w.scene.removeShape w.heap (w.scene.shapes_.getD (toSizeT index) 0) with
    | none => none
    | some (h1, scene1) => some ⟨h1, scene1, w.cout ++ [indexPrompt ++ "Shape deleted."]⟩
  else some ⟨w.heap, w.scene, w.cout ++ [indexPrompt ++ "Invalid index. Please try again."]⟩

/-- Case 5 of the menu: `drawScene()`. -/
def SceneController.drawSceneW (fuel : Nat) (w : World) : Option World :=
  match w.scene.drawScene fuel w.heap w.cout with
  | none => none
  | some out => some ⟨w.heap, w.scene, out⟩

/-- The loop `for (shape : shapes_) shapes.push_back(shape->clone());` at
the start of `SceneController::saveScene`; `shapes` is the local vector. -/
def cloneAll (fuel : Nat) : List Addr → Heap → List Addr → Option (Heap × List Addr)
  | [], h, shapes => some (h, shapes)
  | shape :: rest, h, shapes =>
    match Shape.clone fuel h shape with
    | none => none
    | some (h1, copy) => cloneAll fuel rest h1 (shapes ++ [copy])

/-- A loop `for (shape : shapes) delete shape;`. -/
def deleteAll : List Addr → Heap → Option Heap
  | [], h => some h
  | shape :: rest, h =>
    match h.delete shape with
    | none => none
    | some h1 => deleteAll rest h1

/-! ## Scene mutations -/

/-- The dynamic type named in a `new` expression. -/
inductive Kind where
  | circle
  | square
  | composite
deriving DecidableEq, Repr

/-- The object `new Circle()`, `new Square()` or `new CompositeShape()` makes. -/
def Kind.fresh : Kind → Obj
  | .circle => .circle
  | .square => .square
  | .composite => .composite []

/-- A mutation of the scene: the three menu additions, the menu removal by
index, and `addShape(new K())` / `removeShape(child)` called on a composite. -/
inductive Mutation where
  | addCircle
  | addSquare
  | addCompositeShape
  | removeShape (index : Int)
  | addChild (composite : Addr) (kind : Kind)
  | removeChild (composite : Addr) (child : Addr)
deriving DecidableEq, Repr

/-- Perform one mutation. -/
def Mutation.apply (w : World) : Mutation → Option World
  | .addCircle => some (SceneController.addCircle w)
  | .addSquare => some (SceneController.addSquare w)
  | .addCompositeShape => some (SceneController.addCompositeShape w)
  | .removeShape index => SceneController.removeShapeAt w index
  | .addChild composite kind =>
    match CompositeShape.addShape (w.heap.alloc kind.fresh).1 composite
        (w.heap.alloc kind.fresh).2 with
    | none => none
    | some h1 => some ⟨h1, w.scene, w.cout⟩
  | .removeChild composite child =>
    match CompositeShape.removeShape w.heap composite child with
    | none => none
    | some h1 => some ⟨h1, w.scene, w.cout⟩

/-- Perform a sequence of mutations, first to last. -/
def Mutation.applyAll : List Mutation → World → Option World
  | [], w => some w
  | m :: ms, w =>
    match m.apply w with
    | none => none
    | some w1 => Mutation.applyAll ms w1

/-- The objects a mutation writes to or deletes (objects it creates apart). -/
def Mutation.touches (w : World) : Mutation → List Addr
  | .addCircle => []
  | .addSquare => []
  | .addCompositeShape => []
  | .removeShape index =>
    if 0 ≤ index ∧ toSizeT index < w.scene.shapes_.length then
      [w.scene.shapes_.getD (toSizeT index) 0]
    else []
  | .addChild composite _ => [composite]
  | .removeChild composite child => [composite, child]

/-- Every mutation of the sequence touches only objects at addresses from
`n` on, that is, objects created after the free store had `n` cells. -/
def Mutation.confined (n : Nat) : List Mutation → World → Bool
  | [], _ => true
  | m :: ms, w =>
    (m.touches w).all (fun a => decide (n ≤ a)) &&
      match m.apply w with
      | none => true
      | some w1 => Mutation.confined n ms w1

/-! ## Saving to and loading from a file

`saveScene` and `loadScene` copy object representations to and from the file
with `reinterpret_cast`.  The file is modelled as the sequence of the
pointer-sized words it holds. -/

/-- A pointer-sized word of an object representation. -/
inductive Word where
  /-- The hidden pointer to the virtual table of a class: the address of
  that table, which is not an object on the free store. -/
  | vptr (k : Kind)
  /-- The address of an object on the free store. -/
  | object (a : Addr)
  /-- Any other bit pattern. -/
  | data (n : Nat)
deriving DecidableEq, Repr

/-- The dynamic type of an object. -/
def Obj.kind : Obj → Kind
  | .circle => .circle
  | .square => .square
  | .composite _ => .composite

/-- The statement `file.write(reinterpret_cast<const char*>(shape), sizeof(*shape))`.
The static type of `*shape` is `Shape`, a class without data members, so the
bytes written are the hidden virtual-table pointer of the object and nothing
else; the `shapes_` vector of a CompositeShape lies outside them. -/
def Shape.write (h : Heap) (shape : Addr) (file : List Word) : Option (List Word) :=
  match h.get shape with
  | none => none
  | some o => some (file ++ [.vptr o.kind])

/-- The loop `for (shape : shapes) file.write(...)` of `saveScene`. -/
def writeAll (h : Heap) : List Addr → List Word → Option (List Word)
  | [], file => some file
  | shape :: rest, file =>
    match Shape.write h shape file with
    | none => none
    | some file1 => writeAll h rest file1

/-- Source `SceneController::saveScene(filename)` when the file opens.  The shapes
are cloned, a local caretaker saves the clones, the bytes of the caretaker
object and then of every clone are written, and the clones are deleted.
`rep` gives the bytes of the caretaker object (the pointers its vector keeps
into its buffer).  Returns the state after the call and the file. -/
def SceneController.saveScene (fuel : Nat) (rep : Caretaker → List Word) (filename : String)
    (w : World) : Option (World × List Word) :=
  match cloneAll fuel w.scene.shapes_ w.heap [] with
  | none => none
  | some (h1, shapes) =>
    match writeAll h1 shapes (rep (Caretaker.saveState ⟨[]⟩ shapes)) with
    | none => none
    | some file =>
      match deleteAll shapes h1 with
      | none => none
      | some h2 =>
        some (⟨h2, w.scene, w.cout ++ ["Scene saved to file: " ++ filename]⟩, file)

/-- A word read into a `Shape*` and used as a pointer to a shape: defined
only when the word is the address of an object on the free store. -/
def Word.shape : Word → Option Addr
  | .object a => some a
  | _ => none

/-- The loop `while (file.read(&shape, sizeof(shape))) shapes.push_back(shape->clone());`
of `loadScene`: every word left in the file is taken for a `Shape*`. -/
def loadLoop (fuel : Nat) : List Word → Heap → List Addr → Option (Heap × List Addr)
  | [], h, shapes => some (h, shapes)
  | word :: rest, h, shapes =>
    match word.shape with
    | none => none
    | some shape =>
      match Shape.clone fuel h shape with
      | none => none
      | some (h1, copy) => loadLoop fuel rest h1 (shapes ++ [copy])

/-- Source `SceneController::loadScene(filename)` when the file opens.  The first
`sizeofCaretaker` words overwrite a local caretaker (`unrep` gives the
caretaker those bytes denote, if any), the remaining words are taken for
shape pointers and cloned, the caretaker restores into the local vector, the
old shapes are deleted and the local vector becomes the scene. -/
def SceneController.loadScene (fuel : Nat) (sizeofCaretaker : Nat)
    (unrep : List Word → Option Caretaker) (filename : String) (w : World)
    (file : List Word) : Option World :=
  match unrep (file.take sizeofCaretaker) with
  | none => none
  | some caretaker =>
    match loadLoop fuel (file.drop sizeofCaretaker) w.heap [] with
    | none => none
    | some (h1, shapes) =>
      match deleteAll w.scene.shapes_ h1 with
      | none => none
      | some h2 =>
        some ⟨h2, ⟨(caretaker.restoreState shapes).2⟩,
          w.cout ++ ["Scene loaded from file: " ++ filename]⟩

/-- The scene owns its shapes: the top-level pointers are pairwise distinct
and each designates a live object. -/
def SceneController.WellFormed (w : World) : Prop :=
  w.scene.shapes_.Nodup ∧ ∀ s ∈ w.scene.shapes_, w.heap.get s ≠ none

/-- The mutations the menu offers: cases 1 to 4 of `showMenu`. -/
def Mutation.isMenu : Mutation → Bool
  | .addCircle => true
  | .addSquare => true
  | .addCompositeShape => true
  | .removeShape _ => true
  | .addChild _ _ => false
  | .removeChild _ _ => false

/-- A call of `CompositeShape::addShape` or `CompositeShape::removeShape` on
the composite `target` with the argument `arg`. -/
inductive CompositeCall where
  | addShape (target arg : Addr)
  | removeShape (target arg : Addr)
deriving DecidableEq, Repr

/-- The composite a call is made on. -/
def CompositeCall.target : CompositeCall → Addr
  | .addShape target _ => target
  | .removeShape target _ => target

/-- The pointer a call is given. -/
def CompositeCall.arg : CompositeCall → Addr
  | .addShape _ arg => arg
  | .removeShape _ arg => arg

/-- Perform one call. -/
def CompositeCall.run (h : Heap) : CompositeCall → Option Heap
  | .addShape target arg => CompositeShape.addShape h target arg
  | .removeShape target arg => CompositeShape.removeShape h target arg

/-- Perform a sequence of calls, first to last. -/
def CompositeCall.runAll : List CompositeCall → Heap → Option Heap
  | [], h => some h
  | k :: ks, h =>
    match k.run h with
    | none => none
    | some h1 => CompositeCall.runAll ks h1

/-! ## Concrete scenes -/

/-- The program state at startup: nothing allocated, no shapes, no output. -/
def World.empty : World := ⟨⟨[]⟩, ⟨[]⟩, []⟩

/-- The end-to-end scene: a Circle, a Square and a composite are added to the
empty scene, then a Circle and a Square are added to the composite. -/
def endToEnd : Option World :=
  Mutation.applyAll
    [.addCircle, .addSquare, .addCompositeShape, .addChild 2 .circle, .addChild 2 .square]
    World.empty

/-- A scene holding one empty composite. -/
def oneComposite : World := ⟨⟨[some (.composite [])]⟩, ⟨[0]⟩, []⟩

/-- A scene holding one Circle. -/
def oneCircle : World := ⟨⟨[some .circle]⟩, ⟨[0]⟩, []⟩

/-! ## Predicates used to state the results -/

/-- The free store `h1` is `h` with every cell of `h` unchanged and possibly
more cells after them. -/
def Grows (h h1 : Heap) : Prop :=
  h.size ≤ h1.size ∧ ∀ a, a < h.size → h1.get a = h.get a

/-- Every composite at an address from `n` on has all its children at
addresses from `n` on. -/
def FreshClosed (n : Nat) (h : Heap) : Prop :=
  ∀ a cs, n ≤ a → h.get a = some (.composite cs) → ∀ b ∈ cs, n ≤ b

/-- The state of the loop of `CompositeShape::clone` on the free store `hk`:
the composite under construction sits at the first address after `h`, holds
`copies`, and the copies have the structures `ts`. -/
structure CloneInv (fuel : Nat) (h hk : Heap) (copies : List Addr)
    (ts : List ShapeTree) : Prop where
  grows : Grows h hk
  size_lt : h.size < hk.size
  get_c : hk.get h.size = some (.composite copies)
  closed : FreshClosed (h.size + 1) hk
  fresh : ∀ x ∈ copies, h.size + 1 ≤ x
  shapes : allSome (copies.map (shapeOf fuel hk)) = some ts

/-! ## Basic facts about the free store -/

theorem Heap.get_lt {h : Heap} {a : Addr} {o : Obj} (hg : h.get a = some o) : a < h.size := by
  unfold Heap.get at hg
  unfold Heap.size
  by_contra hlt
  rw [List.getElem?_eq_none (Nat.le_of_not_lt hlt)] at hg
  simp at hg

theorem Heap.get_eq_some_iff {h : Heap} {a : Addr} {o : Obj} :
    h.get a = some o ↔ h.cells[a]? = some (some o) := by
  unfold Heap.get
  constructor
  · intro hg
    split at hg
    · rename_i o1 heq
      rw [heq]
      simpa using hg
    · simp at hg
  · intro hc
    rw [hc]

theorem Heap.size_alloc (h : Heap) (o : Obj) : (h.alloc o).1.size = h.size + 1 := by
  simp [Heap.alloc, Heap.size]

theorem Heap.alloc_snd (h : Heap) (o : Obj) : (h.alloc o).2 = h.size := rfl

theorem Heap.get_alloc_of_lt (h : Heap) (o : Obj) {a : Addr} (ha : a < h.size) :
    (h.alloc o).1.get a = h.get a := by
  unfold Heap.size at ha
  simp [Heap.get, Heap.alloc, List.getElem?_append_left ha]

theorem Heap.get_alloc_self (h : Heap) (o : Obj) : (h.alloc o).1.get h.size = some o := by
  simp [Heap.get, Heap.alloc, Heap.size]

theorem Heap.size_set (h : Heap) (a : Addr) (o : Obj) : (h.set a o).size = h.size := by
  simp [Heap.set, Heap.size]

theorem Heap.get_set_of_ne (h : Heap) (o : Obj) {a b : Addr} (hne : b ≠ a) :
    (h.set a o).get b = h.get b := by
  simp [Heap.get, Heap.set, List.getElem?_set_ne (Ne.symm hne)]

theorem Heap.get_set_self (h : Heap) (o : Obj) {a : Addr} (ha : a < h.size) :
    (h.set a o).get a = some o := by
  unfold Heap.size at ha
  simp [Heap.get, Heap.set, List.getElem?_set_self, ha]

theorem Heap.delete_eq_some {h h1 : Heap} {a : Addr} (hd : h.delete a = some h1) :
    h.get a ≠ none ∧ h1 = ⟨h.cells.set a none⟩ := by
  unfold Heap.delete at hd
  split at hd
  · rename_i o ho
    simp at hd
    exact ⟨by simp [ho], hd.symm⟩
  · simp at hd

theorem Heap.size_delete {h h1 : Heap} {a : Addr} (hd : h.delete a = some h1) :
    h1.size = h.size := by
  rw [(Heap.delete_eq_some hd).2]
  simp [Heap.size]

theorem Heap.get_delete_of_ne {h h1 : Heap} {a b : Addr} (hd : h.delete a = some h1)
    (hne : b ≠ a) : h1.get b = h.get b := by
  rw [(Heap.delete_eq_some hd).2]
  simp [Heap.get, List.getElem?_set_ne (Ne.symm hne)]

theorem Heap.get_delete_self {h h1 : Heap} {a : Addr} (hd : h.delete a = some h1) :
    h1.get a = none := by
  rw [(Heap.delete_eq_some hd).2]
  unfold Heap.get
  by_cases ha : a < h.cells.length
  · simp [List.getElem?_set_self, ha]
  · rw [List.getElem?_eq_none (by simpa using ha)]

/-! ## Facts about `allSome` -/

theorem allSome_cons_eq_some {α : Type} {x : Option α} {rest : List (Option α)} {ys : List α}
    (hs : allSome (x :: rest) = some ys) :
    ∃ y ys1, x = some y ∧ allSome rest = some ys1 ∧ ys = y :: ys1 := by
  cases x with
  | none => simp [allSome] at hs
  | some y =>
    simp only [allSome] at hs
    split at hs
    · simp at hs
    · rename_i ys1 hrest
      simp at hs
      exact ⟨y, ys1, rfl, hrest, hs.symm⟩

theorem allSome_cons_of_some {α : Type} {x : Option α} {rest : List (Option α)} {y : α}
    {ys : List α} (hx : x = some y) (hr : allSome rest = some ys) :
    allSome (x :: rest) = some (y :: ys) := by
  subst hx
  simp [allSome, hr]

theorem allSome_map_congr {α β : Type} {f g : α → Option β} :
    ∀ (l : List α) (ys : List β), (∀ a ∈ l, ∀ y, f a = some y → g a = some y) →
      allSome (l.map f) = some ys → allSome (l.map g) = some ys
  | [], ys, _, hs => by simpa using hs
  | a :: l, ys, hfg, hs => by
    rw [List.map_cons] at hs
    obtain ⟨y, ys1, hy, hr, rfl⟩ := allSome_cons_eq_some hs
    rw [List.map_cons]
    exact allSome_cons_of_some (hfg a (List.mem_cons_self a l) y hy)
      (allSome_map_congr l ys1 (fun b hb => hfg b (List.mem_cons_of_mem a hb)) hr)

theorem allSome_map_append {α β : Type} {f : α → Option β} :
    ∀ (l1 l2 : List α) (ys1 ys2 : List β), allSome (l1.map f) = some ys1 →
      allSome (l2.map f) = some ys2 → allSome ((l1 ++ l2).map f) = some (ys1 ++ ys2)
  | [], l2, ys1, ys2, h1, h2 => by
    simp [allSome] at h1
    subst h1
    simpa using h2
  | a :: l1, l2, ys1, ys2, h1, h2 => by
    rw [List.map_cons] at h1
    obtain ⟨y, ys, hy, hr, rfl⟩ := allSome_cons_eq_some h1
    rw [List.cons_append, List.map_cons, List.cons_append]
    exact allSome_cons_of_some hy (allSome_map_append l1 l2 ys ys2 hr h2)

theorem allSome_map_mem {α β : Type} {f : α → Option β} :
    ∀ (l : List α) (ys : List β), allSome (l.map f) = some ys →
      ∀ a ∈ l, ∃ y, f a = some y
  | [], _, _, a, ha => by simp at ha
  | b :: l, ys, hs, a, ha => by
    rw [List.map_cons] at hs
    obtain ⟨y, ys1, hy, hr, rfl⟩ := allSome_cons_eq_some hs
    rcases List.mem_cons.mp ha with rfl | hmem
    · exact ⟨y, hy⟩
    · exact allSome_map_mem l ys1 hr a hmem

theorem allSome_map_length {α β : Type} {f : α → Option β} :
    ∀ (l : List α) (ys : List β), allSome (l.map f) = some ys → ys.length = l.length
  | [], ys, hs => by
    simp [allSome] at hs
    subst hs
    rfl
  | a :: l, ys, hs => by
    rw [List.map_cons] at hs
    obtain ⟨y, ys1, _, hr, rfl⟩ := allSome_cons_eq_some hs
    simp [allSome_map_length l ys1 hr]

theorem allSome_map_getD {α β : Type} {f : α → Option β} (d : α) (e : β) :
    ∀ (l : List α) (ys : List β), allSome (l.map f) = some ys →
      ∀ i, i < l.length → f (l.getD i d) = some (ys.getD i e)
  | [], _, _, i, hi => by simp at hi
  | a :: l, ys, hs, i, hi => by
    rw [List.map_cons] at hs
    obtain ⟨y, ys1, hy, hr, rfl⟩ := allSome_cons_eq_some hs
    cases i with
    | zero => simpa using hy
    | succ j =>
      have hj : j < l.length := by simpa using hi
      simpa using allSome_map_getD d e l ys1 hr j hj

/-! ## Structure is stable under changes elsewhere on the free store -/

/-- When a set of addresses is closed under child pointers in `h` and every
live object of the set is the same in `h1`, shapes inside the set have the
same structure in `h1`. -/
theorem shapeOf_mono {h h1 : Heap} (P : Addr → Prop)
    (hcl : ∀ a cs, P a → h.get a = some (.composite cs) → ∀ b ∈ cs, P b)
    (hpres : ∀ a o, P a → h.get a = some o → h1.get a = some o) :
    ∀ (fuel : Nat) (p : Addr) (t : ShapeTree), P p → shapeOf fuel h p = some t →
      shapeOf fuel h1 p = some t
  | 0, _, _, _, hs => by simp [shapeOf] at hs
  | fuel + 1, p, t, hp, hs => by
    unfold shapeOf at hs ⊢
    cases hg : h.get p with
    | none => simp [hg] at hs
    | some o =>
      rw [hpres p o hp hg]
      rw [hg] at hs
      cases o with
      | circle => exact hs
      | square => exact hs
      | composite cs =>
        simp only at hs ⊢
        cases ha : allSome (cs.map (shapeOf fuel h)) with
        | none => simp [ha] at hs
        | some ts =>
          rw [allSome_map_congr cs ts
            (fun b hb y hy => shapeOf_mono P hcl hpres fuel b y (hcl p cs hp hg b hb) hy) ha]
          rw [ha] at hs
          exact hs

/-- More fuel never changes a structure already found. -/
theorem shapeOf_fuel_succ {h : Heap} :
    ∀ (fuel : Nat) (p : Addr) (t : ShapeTree), shapeOf fuel h p = some t →
      shapeOf (fuel + 1) h p = some t
  | 0, _, _, hs => by simp [shapeOf] at hs
  | fuel + 1, p, t, hs => by
    unfold shapeOf at hs ⊢
    cases hg : h.get p with
    | none => simp [hg] at hs
    | some o =>
      rw [hg] at hs
      cases o with
      | circle => exact hs
      | square => exact hs
      | composite cs =>
        simp only at hs ⊢
        cases ha : allSome (cs.map (shapeOf fuel h)) with
        | none => simp [ha] at hs
        | some ts =>
          rw [allSome_map_congr cs ts (fun b _ y hy => shapeOf_fuel_succ fuel b y hy) ha]
          rw [ha] at hs
          exact hs

/-! ## Drawing -/

theorem drawLoop_cout {dr : Addr → List String → Option (List String)}
    (hdr : ∀ p out, dr p out = (dr p []).map (fun ls => out ++ ls)) :
    ∀ (cs : List Addr) (out : List String),
      drawLoop dr cs out = (allSome (cs.map (fun c => dr c []))).map
        (fun ls => out ++ ls.flatten)
  | [], out => by simp [drawLoop, allSome]
  | c :: cs, out => by
    rw [drawLoop, hdr c out, List.map_cons]
    cases hc : dr c [] with
    | none => simp [allSome]
    | some l =>
      simp only [Option.map_some', allSome]
      rw [drawLoop_cout hdr cs (out ++ l)]
      cases allSome (cs.map (fun c => dr c [])) with
      | none => simp
      | some ls => simp [List.append_assoc]

/-- What `draw` leaves on `cout` is what was there followed by the lines it
writes on an empty stream. -/
theorem Shape.draw_cout (h : Heap) :
    ∀ (fuel : Nat) (p : Addr) (out : List String),
      Shape.draw fuel h p out = (Shape.draw fuel h p []).map (fun ls => out ++ ls)
  | 0, _, _ => by simp [Shape.draw]
  | fuel + 1, p, out => by
    unfold Shape.draw
    cases hg : h.get p with
    | none => simp
    | some o =>
      cases o with
      | circle => simp
      | square => simp
      | composite cs =>
        simp only
        rw [drawLoop_cout (Shape.draw_cout h fuel) cs out,
          drawLoop_cout (Shape.draw_cout h fuel) cs []]
        cases allSome (cs.map (fun c => Shape.draw fuel h c [])) with
        | none => simp
        | some ls => simp

theorem drawLoop_of_shapes {h : Heap} {fuel : Nat}
    (hdr : ∀ p t out, shapeOf fuel h p = some t →
      Shape.draw fuel h p out = some (out ++ t.render)) :
    ∀ (cs : List Addr) (ts : List ShapeTree) (out : List String),
      allSome (cs.map (shapeOf fuel h)) = some ts →
      drawLoop (Shape.draw fuel h) cs out = some (out ++ ShapeTree.renderAll ts)
  | [], ts, out, hs => by
    simp [allSome] at hs
    subst hs
    simp [drawLoop, ShapeTree.renderAll]
  | c :: cs, ts, out, hs => by
    rw [List.map_cons] at hs
    obtain ⟨t, ts1, ht, hr, rfl⟩ := allSome_cons_eq_some hs
    rw [drawLoop, hdr c t out ht]
    simp only
    rw [drawLoop_of_shapes hdr cs ts1 (out ++ t.render) hr]
    simp [ShapeTree.renderAll, List.append_assoc]

/-- A shape with structure `t` draws the lines `t.render`. -/
theorem Shape.draw_of_shapeOf (h : Heap) :
    ∀ (fuel : Nat) (p : Addr) (t : ShapeTree) (out : List String),
      shapeOf fuel h p = some t → Shape.draw fuel h p out = some (out ++ t.render)
  | 0, _, _, _, hs => by simp [shapeOf] at hs
  | fuel + 1, p, t, out, hs => by
    unfold shapeOf at hs
    unfold Shape.draw
    cases hg : h.get p with
    | none => simp [hg] at hs
    | some o =>
      rw [hg] at hs
      cases o with
      | circle =>
        simp at hs
        subst hs
        simp [ShapeTree.render]
      | square =>
        simp at hs
        subst hs
        simp [ShapeTree.render]
      | composite cs =>
        simp only at hs ⊢
        cases ha : allSome (cs.map (shapeOf fuel h)) with
        | none => simp [ha] at hs
        | some ts =>
          rw [ha] at hs
          simp at hs
          subst hs
          rw [drawLoop_of_shapes (Shape.draw_of_shapeOf h fuel) cs ts out ha]
          simp [ShapeTree.render]

/-- A scene whose shapes have the structures `ts` draws `renderAll ts`. -/
theorem SceneController.drawScene_of_shapesOf {h : Heap} {fuel : Nat}
    {self : SceneController} {ts : List ShapeTree} (out : List String)
    (hs : shapesOf fuel h self.shapes_ = some ts) :
    self.drawScene fuel h out = some (out ++ ShapeTree.renderAll ts) :=
  drawLoop_of_shapes (Shape.draw_of_shapeOf h fuel) self.shapes_ ts out hs

/-! ## Cloning -/

theorem Grows.refl (h : Heap) : Grows h h := ⟨Nat.le_refl _, fun _ _ => rfl⟩

theorem Grows.trans {h h1 h2 : Heap} (h01 : Grows h h1) (h12 : Grows h1 h2) : Grows h h2 :=
  ⟨Nat.le_trans h01.1 h12.1, fun a ha => by
    rw [h12.2 a (Nat.lt_of_lt_of_le ha h01.1), h01.2 a ha]⟩

theorem Grows.alloc (h : Heap) (o : Obj) : Grows h (h.alloc o).1 :=
  ⟨by rw [Heap.size_alloc]; exact Nat.le_succ _, fun _ ha => Heap.get_alloc_of_lt h o ha⟩

theorem Grows.get {h h1 : Heap} (hg : Grows h h1) {a : Addr} {o : Obj}
    (ha : h.get a = some o) : h1.get a = some o := by
  rw [hg.2 a (Heap.get_lt ha)]
  exact ha

/-- Structures found on `h` are found unchanged on a free store grown from it. -/
theorem shapeOf_grows {h h1 : Heap} (hg : Grows h h1) {fuel : Nat} {p : Addr} {t : ShapeTree}
    (hs : shapeOf fuel h p = some t) : shapeOf fuel h1 p = some t :=
  shapeOf_mono (fun _ => True) (fun _ _ _ _ _ _ => trivial) (fun _ _ _ ha => hg.get ha)
    fuel p t trivial hs

theorem CompositeShape.addShape_eq_some {h h1 : Heap} {c x : Addr}
    (ha : CompositeShape.addShape h c x = some h1) :
    ∃ cs, h.get c = some (.composite cs) ∧ h1 = h.set c (.composite (cs ++ [x])) := by
  unfold CompositeShape.addShape at ha
  split at ha
  · rename_i cs hc
    simp at ha
    exact ⟨cs, hc, ha.symm⟩
  · simp at ha

theorem CompositeShape.addShape_of_get {h : Heap} {c x : Addr} {cs : List Addr}
    (hc : h.get c = some (.composite cs)) :
    CompositeShape.addShape h c x = some (h.set c (.composite (cs ++ [x]))) := by
  simp [CompositeShape.addShape, hc]

/-- One turn of the loop of `CompositeShape::clone` keeps its invariant. -/
theorem CloneInv.step {fuel : Nat} {h hk h1 : Heap} {copies : List Addr}
    {ts : List ShapeTree} {x : Addr} {t : ShapeTree} (inv : CloneInv fuel h hk copies ts)
    (hg : Grows hk h1) (hx : hk.size ≤ x) (hcl : FreshClosed hk.size h1)
    (hs : shapeOf fuel h1 x = some t) :
    CloneInv fuel h (h1.set h.size (.composite (copies ++ [x]))) (copies ++ [x])
      (ts ++ [t]) := by
  have hc1 : h1.get h.size = some (.composite copies) := hg.get inv.get_c
  have hclosed1 : FreshClosed (h.size + 1) h1 := by
    intro a cs ha hget b hb
    by_cases hlt : a < hk.size
    · rw [hg.2 a hlt] at hget
      exact inv.closed a cs ha hget b hb
    · exact Nat.le_trans inv.size_lt (hcl a cs (Nat.le_of_not_lt hlt) hget b hb)
  have hpres : ∀ a o, h.size + 1 ≤ a → h1.get a = some o →
      (h1.set h.size (.composite (copies ++ [x]))).get a = some o := by
    intro a o ha hget
    rw [Heap.get_set_of_ne h1 _ (Nat.ne_of_gt ha)]
    exact hget
  refine ⟨?_, ?_, ?_, ?_, ?_, ?_⟩
  · refine ⟨?_, ?_⟩
    · rw [Heap.size_set]
      exact Nat.le_trans inv.grows.1 hg.1
    · intro a ha
      rw [Heap.get_set_of_ne h1 _ (Nat.ne_of_lt ha)]
      exact (inv.grows.trans hg).2 a ha
  · rw [Heap.size_set]
    exact Nat.lt_of_lt_of_le inv.size_lt hg.1
  · exact Heap.get_set_self h1 _ (Heap.get_lt hc1)
  · intro a cs ha hget b hb
    rw [Heap.get_set_of_ne h1 _ (Nat.ne_of_gt ha)] at hget
    exact hclosed1 a cs ha hget b hb
  · intro y hy
    rcases List.mem_append.mp hy with hy | hy
    · exact inv.fresh y hy
    · rw [List.mem_singleton] at hy
      subst hy
      exact Nat.le_trans inv.size_lt hx
  · refine allSome_map_append copies [x] ts [t] ?_ ?_
    · refine allSome_map_congr copies ts ?_ inv.shapes
      intro a ha y hy
      exact shapeOf_mono (fun a => h.size + 1 ≤ a) hclosed1 hpres fuel a y (inv.fresh a ha)
        (shapeOf_grows hg hy)
    · rw [List.map_singleton]
      exact allSome_cons_of_some
        (shapeOf_mono (fun a => h.size + 1 ≤ a) hclosed1 hpres fuel x t
          (Nat.le_trans inv.size_lt hx) hs) rfl

/-- The loop of `CompositeShape::clone` runs to its end and keeps its
invariant, provided the recursive `clone` calls behave. -/
theorem cloneLoop_spec {fuel : Nat} {h : Heap}
    (ih : ∀ (h0 : Heap) (p : Addr) (t : ShapeTree), shapeOf fuel h0 p = some t →
      ∃ h1 c, Shape.clone fuel h0 p = some (h1, c) ∧ Grows h0 h1 ∧ h0.size ≤ c ∧
        FreshClosed h0.size h1 ∧ shapeOf fuel h1 c = some t) :
    ∀ (rest : List Addr) (tsRest : List ShapeTree) (hk : Heap) (copies : List Addr)
      (ts : List ShapeTree), CloneInv fuel h hk copies ts →
      allSome (rest.map (shapeOf fuel h)) = some tsRest →
      ∃ hf copiesF, cloneLoop (Shape.clone fuel) h.size rest hk = some hf ∧
        CloneInv fuel h hf copiesF (ts ++ tsRest) ∧ copiesF.length = copies.length + rest.length
  | [], tsRest, hk, copies, ts, inv, hr => by
    simp [allSome] at hr
    subst hr
    exact ⟨hk, copies, rfl, by simpa using inv, by simp⟩
  | s :: rest, tsRest, hk, copies, ts, inv, hr => by
    rw [List.map_cons] at hr
    obtain ⟨t, ts1, ht, hr1, rfl⟩ := allSome_cons_eq_some hr
    obtain ⟨h1, x, hcl, hg, hx, hfc, hsx⟩ := ih hk s t (shapeOf_grows inv.grows ht)
    have inv1 := inv.step hg hx hfc hsx
    obtain ⟨hf, copiesF, hloop, invF, hlen⟩ :=
      cloneLoop_spec ih rest ts1 _ (copies ++ [x]) (ts ++ [t]) inv1 hr1
    refine ⟨hf, copiesF, ?_, by simpa [List.append_assoc] using invF, ?_⟩
    · rw [cloneLoop, hcl]
      simp only
      rw [CompositeShape.addShape_of_get (hg.get inv.get_c)]
      exact hloop
    · rw [hlen]
      simp
      omega

/-- Calling `clone` on a shape of structure `t` returns; the free store only grows,
the copy is a new object, everything the copy points to is new, and the copy
has structure `t`. -/
theorem Shape.clone_spec :
    ∀ (fuel : Nat) (h : Heap) (p : Addr) (t : ShapeTree), shapeOf fuel h p = some t →
      ∃ h1 c, Shape.clone fuel h p = some (h1, c) ∧ Grows h h1 ∧ h.size ≤ c ∧
        FreshClosed h.size h1 ∧ shapeOf fuel h1 c = some t
  | 0, _, _, _, hs => by simp [shapeOf] at hs
  | fuel + 1, h, p, t, hs => by
    have hleaf : ∀ o : Obj, (∀ cs, o ≠ .composite cs) →
        FreshClosed h.size (h.alloc o).1 := by
      intro o ho a cs ha hget b _
      exfalso
      have hlt := Heap.get_lt hget
      rw [Heap.size_alloc] at hlt
      have hEq : a = h.size := Nat.le_antisymm (Nat.lt_succ_iff.mp hlt) ha
      subst hEq
      rw [Heap.get_alloc_self] at hget
      exact ho cs (by simpa using hget)
    unfold shapeOf at hs
    unfold Shape.clone
    cases hg : h.get p with
    | none => simp [hg] at hs
    | some o =>
      rw [hg] at hs
      cases o with
      | circle =>
        simp at hs
        subst hs
        refine ⟨(h.alloc .circle).1, (h.alloc .circle).2, rfl, Grows.alloc h _, Nat.le_refl _,
          hleaf _ (by simp), ?_⟩
        rw [Heap.alloc_snd]
        unfold shapeOf
        rw [Heap.get_alloc_self]
      | square =>
        simp at hs
        subst hs
        refine ⟨(h.alloc .square).1, (h.alloc .square).2, rfl, Grows.alloc h _, Nat.le_refl _,
          hleaf _ (by simp), ?_⟩
        rw [Heap.alloc_snd]
        unfold shapeOf
        rw [Heap.get_alloc_self]
      | composite cs =>
        simp only at hs ⊢
        cases ha : allSome (cs.map (shapeOf fuel h)) with
        | none => simp [ha] at hs
        | some ts =>
          rw [ha] at hs
          simp at hs
          subst hs
          have inv0 : CloneInv fuel h (h.alloc (.composite [])).1 [] [] := by
            refine ⟨Grows.alloc h _, ?_, Heap.get_alloc_self h _, ?_, by simp, rfl⟩
            · rw [Heap.size_alloc]
              exact Nat.lt_succ_self _
            · intro a cs1 ha1 hget
              have hlt := Heap.get_lt hget
              rw [Heap.size_alloc] at hlt
              exact absurd hlt (Nat.not_lt.mpr ha1)
          obtain ⟨hf, copiesF, hloop, invF, _⟩ :=
            cloneLoop_spec (Shape.clone_spec fuel) cs ts _ [] [] inv0 ha
          rw [Heap.alloc_snd, hloop]
          refine ⟨hf, h.size, rfl, invF.grows, Nat.le_refl _, ?_, ?_⟩
          · intro a cs1 ha1 hget b hb
            by_cases hEq : a = h.size
            · subst hEq
              rw [invF.get_c] at hget
              simp at hget
              subst hget
              exact Nat.le_of_succ_le (invF.fresh b hb)
            · exact Nat.le_of_succ_le
                (invF.closed a cs1 (Nat.lt_of_le_of_ne ha1 (Ne.symm hEq)) hget b hb)
          · unfold shapeOf
            rw [invF.get_c]
            simp only
            rw [invF.shapes]
            simp

/-! ## Reachability -/

theorem shapeOf_succ_inv {h : Heap} {fuel : Nat} {p : Addr} {t : ShapeTree}
    (hs : shapeOf (fuel + 1) h p = some t) :
    (h.get p = some .circle ∧ t = .circle) ∨ (h.get p = some .square ∧ t = .square) ∨
      ∃ cs ts, h.get p = some (.composite cs) ∧ t = .composite ts ∧
        allSome (cs.map (shapeOf fuel h)) = some ts := by
  unfold shapeOf at hs
  cases hg : h.get p with
  | none => simp [hg] at hs
  | some o =>
    rw [hg] at hs
    cases o with
    | circle => exact Or.inl ⟨rfl, by simpa using hs.symm⟩
    | square => exact Or.inr (Or.inl ⟨rfl, by simpa using hs.symm⟩)
    | composite cs =>
      simp only at hs
      cases ha : allSome (cs.map (shapeOf fuel h)) with
      | none => simp [ha] at hs
      | some ts =>
        rw [ha] at hs
        exact Or.inr (Or.inr ⟨cs, ts, rfl, by simpa using hs.symm, ha⟩)

theorem shapeOf_live {h : Heap} {fuel : Nat} {p : Addr} {t : ShapeTree}
    (hs : shapeOf fuel h p = some t) : ∃ o, h.get p = some o := by
  cases fuel with
  | zero => simp [shapeOf] at hs
  | succ f =>
    rcases shapeOf_succ_inv hs with ⟨hg, _⟩ | ⟨hg, _⟩ | ⟨cs, _, hg, _, _⟩
    · exact ⟨_, hg⟩
    · exact ⟨_, hg⟩
    · exact ⟨_, hg⟩

/-- Everything reachable from a fresh object of a closed fresh region is fresh. -/
theorem Reachable.fresh {h : Heap} {n : Nat} (hcl : FreshClosed n h) {c a : Addr}
    (hr : Reachable h c a) : n ≤ c → n ≤ a := by
  induction hr with
  | refl a => exact id
  | step hg hb _ ih => exact fun hc => ih (hcl _ _ hc hg _ hb)

/-- Everything reachable, on a grown free store, from a shape that had
a structure before the growth is an object that existed before the growth,
and its cell is unchanged. -/
theorem Reachable.old {h h1 : Heap} (hg : Grows h h1) {s a : Addr} (hr : Reachable h1 s a) :
    ∀ (fuel : Nat) (t : ShapeTree), shapeOf fuel h s = some t →
      a < h.size ∧ ∃ o, h.get a = some o := by
  induction hr with
  | refl a =>
    intro fuel t hs
    obtain ⟨o, ho⟩ := shapeOf_live hs
    exact ⟨Heap.get_lt ho, o, ho⟩
  | @step a b c cs hget hb _ ih =>
    intro fuel t hs
    obtain ⟨o, ho⟩ := shapeOf_live hs
    rw [hg.2 a (Heap.get_lt ho)] at hget
    cases fuel with
    | zero => simp [shapeOf] at hs
    | succ f =>
      rcases shapeOf_succ_inv hs with ⟨hc, _⟩ | ⟨hc, _⟩ | ⟨cs1, ts, hc, _, hall⟩
      · rw [hc] at hget
        simp at hget
      · rw [hc] at hget
        simp at hget
      · rw [hc] at hget
        simp at hget
        subst hget
        obtain ⟨tb, htb⟩ := allSome_map_mem cs1 ts hall b hb
        exact ih f tb htb

/-! ## Effect of a mutation of a composite -/

theorem getD_indexOf {l : List Addr} {p : Addr} (hlt : l.indexOf p < l.length) :
    l.getD (l.indexOf p) 0 = p := by
  rw [List.getD_eq_getElem l 0 hlt]
  exact List.getElem_indexOf hlt

/-- Calls of `addShape` and `removeShape` on the composite `x` with argument
`p` leave the size of the free store alone and change at most the cell of
`x` and, when `p` is a child of `x`, the cell of `p`. -/
theorem CompositeShape.mutation_frame {h h2 : Heap} {x p : Addr}
    (hm : CompositeShape.addShape h x p = some h2 ∨
      CompositeShape.removeShape h x p = some h2) :
    ∃ cs, h.get x = some (.composite cs) ∧ h2.size = h.size ∧
      ∀ a, a ≠ x → (a ∈ cs → a ≠ p) → h2.get a = h.get a := by
  rcases hm with ha | hr
  · obtain ⟨cs, hx, rfl⟩ := CompositeShape.addShape_eq_some ha
    exact ⟨cs, hx, Heap.size_set _ _ _, fun a hne _ => Heap.get_set_of_ne h _ hne⟩
  · unfold CompositeShape.removeShape at hr
    cases hx : h.get x with
    | none => simp [hx] at hr
    | some o =>
      rw [hx] at hr
      cases o with
      | circle => simp at hr
      | square => simp at hr
      | composite cs =>
        refine ⟨cs, rfl, ?_⟩
        simp only at hr
        split at hr
        · rename_i hlt
          split at hr
          · simp at hr
          · rename_i h1 hd
            rw [getD_indexOf hlt] at hd
            have hmem : p ∈ cs := List.indexOf_lt_length.mp hlt
            split at hr
            · rename_i cs1 _
              simp at hr
              subst hr
              refine ⟨?_, ?_⟩
              · rw [Heap.size_set, Heap.size_delete hd]
              · intro a hne hnot
                rw [Heap.get_set_of_ne h1 _ hne]
                exact Heap.get_delete_of_ne hd (fun hEq => hnot (hEq ▸ hmem) hEq)
            · simp at hr
        · simp at hr
          subst hr
          exact ⟨rfl, fun _ _ _ => rfl⟩

theorem Reachable.tail {h : Heap} {a b c : Addr} {cs : List Addr} (hr : Reachable h a b)
    (hg : h.get b = some (.composite cs)) (hc : c ∈ cs) : Reachable h a c := by
  induction hr with
  | refl a => exact Reachable.step hg hc (Reachable.refl c)
  | step hget hb _ ih => exact Reachable.step hget hb (ih hg)

theorem shapeOf_children {h h1 : Heap} {fuel : Nat} {s c : Addr} {t : ShapeTree}
    (hs : shapeOf (fuel + 1) h s = some t) (hc : shapeOf (fuel + 1) h1 c = some t) :
    (h.get s = some .circle → h1.get c = some .circle) ∧
      (h.get s = some .square → h1.get c = some .square) ∧
      ∀ shapes_, h.get s = some (.composite shapes_) →
        ∃ copies, h1.get c = some (.composite copies) ∧ copies.length = shapes_.length ∧
          ∀ i, i < shapes_.length → ∃ ti, shapeOf fuel h (shapes_.getD i 0) = some ti ∧
            shapeOf fuel h1 (copies.getD i 0) = some ti := by
  rcases shapeOf_succ_inv hs with ⟨hg, rfl⟩ | ⟨hg, rfl⟩ | ⟨cs, ts, hg, rfl, hall⟩
  · rcases shapeOf_succ_inv hc with ⟨hg1, _⟩ | ⟨_, ht⟩ | ⟨_, _, _, ht, _⟩
    · exact ⟨fun _ => hg1, by simp [hg], by simp [hg]⟩
    · cases ht
    · cases ht
  · rcases shapeOf_succ_inv hc with ⟨_, ht⟩ | ⟨hg1, _⟩ | ⟨_, _, _, ht, _⟩
    · cases ht
    · exact ⟨by simp [hg], fun _ => hg1, by simp [hg]⟩
    · cases ht
  · rcases shapeOf_succ_inv hc with ⟨_, ht⟩ | ⟨_, ht⟩ | ⟨cs1, ts1, hg1, ht, hall1⟩
    · cases ht
    · cases ht
    · cases ht
      refine ⟨by simp [hg], by simp [hg], ?_⟩
      intro shapes_ hsh
      rw [hg] at hsh
      simp at hsh
      subst hsh
      refine ⟨cs1, hg1, ?_, ?_⟩
      · rw [← allSome_map_length cs1 ts hall1, allSome_map_length cs ts hall]
      · intro i hi
        have hi1 : i < cs1.length := by
          rw [← allSome_map_length cs1 ts hall1, allSome_map_length cs ts hall]
          exact hi
        exact ⟨ts.getD i .circle, allSome_map_getD 0 .circle cs ts hall i hi,
          allSome_map_getD 0 .circle cs1 ts hall1 i hi1⟩

/-! ## C1 and C2: cloning -/

/-- C1: for every shape `s` with a structure (a Circle, a Square or a
CompositeShape of finite nesting depth), `s->clone()` returns a shape with the
same structure: the same variant and, for a composite, a child sequence of
the same length whose i-th child has the structure of the i-th child of `s`,
in the same order. -/
theorem clone_structurally_equal (fuel : Nat) (h : Heap) (s : Addr) (t : ShapeTree)
    (hs : shapeOf fuel h s = some t) :
    ∃ h1 c, Shape.clone fuel h s = some (h1, c) ∧ shapeOf fuel h1 c = some t ∧
      (h.get s = some .circle → h1.get c = some .circle) ∧
      (h.get s = some .square → h1.get c = some .square) ∧
      ∀ shapes_, h.get s = some (.composite shapes_) →
        ∃ copies, h1.get c = some (.composite copies) ∧ copies.length = shapes_.length ∧
          ∀ i, i < shapes_.length →
            ∃ ti, shapeOf (fuel - 1) h (shapes_.getD i 0) = some ti ∧
              shapeOf (fuel - 1) h1 (copies.getD i 0) = some ti := by
  obtain ⟨h1, c, hcl, _, _, _, hsc⟩ := Shape.clone_spec fuel h s t hs
  refine ⟨h1, c, hcl, hsc, ?_⟩
  cases fuel with
  | zero => simp [shapeOf] at hs
  | succ f => exact shapeOf_children hs hsc

/-- A sequence of calls changes no cell other than those of its targets and
arguments, and leaves the size of the free store alone. -/
theorem CompositeCall.runAll_frame (ok : Addr → Prop) :
    ∀ (ks : List CompositeCall) (h h2 : Heap), CompositeCall.runAll ks h = some h2 →
      (∀ k ∈ ks, ok k.target ∧ ok k.arg) →
      h2.size = h.size ∧ ∀ a, ¬ ok a → h2.get a = h.get a
  | [], h, h2, hrun, _ => by
    simp [CompositeCall.runAll] at hrun
    subst hrun
    exact ⟨rfl, fun _ _ => rfl⟩
  | k :: ks, h, h2, hrun, hok => by
    rw [CompositeCall.runAll] at hrun
    cases hk : k.run h with
    | none => simp [hk] at hrun
    | some h1 =>
      rw [hk] at hrun
      obtain ⟨hsz2, hget2⟩ := CompositeCall.runAll_frame ok ks h1 h2 hrun
        (fun k1 hk1 => hok k1 (List.mem_cons_of_mem _ hk1))
      obtain ⟨hokt, hoka⟩ := hok k (List.mem_cons_self _ _)
      have hm : CompositeShape.addShape h k.target k.arg = some h1 ∨
          CompositeShape.removeShape h k.target k.arg = some h1 := by
        cases k with
        | addShape target arg => exact Or.inl hk
        | removeShape target arg => exact Or.inr hk
      obtain ⟨cs, _, hsz1, hget1⟩ := CompositeShape.mutation_frame hm
      refine ⟨by rw [hsz2, hsz1], fun a ha => ?_⟩
      rw [hget2 a ha]
      exact hget1 a (fun hEq => ha (hEq ▸ hokt)) (fun _ hEq => ha (hEq ▸ hoka))

/-- C2: for every shape `s` with a structure and `c = s->clone()`, every
object reachable from `c` was created by the clone and every object
reachable from `s` existed before, so no object reachable from `c` is
reachable from `s`.  One `addShape` or `removeShape` call on `c` or on a
composite nested in `c`, with any argument, leaves the child sequence, the
draw output and the structure of `s` as they were, and so does every
sequence of such calls on objects created since the clone; in the same way
calls on `s`, on a composite nested in `s`, or on objects that existed
before the clone leave those of `c` as they were. -/
theorem clone_independent (fuel : Nat) (h : Heap) (s : Addr) (t : ShapeTree)
    (hs : shapeOf fuel h s = some t) :
    ∃ h1 c, Shape.clone fuel h s = some (h1, c) ∧
      (∀ a, Reachable h1 c a → h.size ≤ a) ∧
      (∀ a, Reachable h1 s a → a < h.size) ∧
      (∀ a, Reachable h1 c a → ¬ Reachable h1 s a) ∧
      (∀ x p h2, Reachable h1 c x →
        (CompositeShape.addShape h1 x p = some h2 ∨
          CompositeShape.removeShape h1 x p = some h2) →
        h2.get s = h.get s ∧ shapeOf fuel h2 s = some t ∧
          Shape.draw fuel h2 s [] = Shape.draw fuel h s []) ∧
      (∀ x p h2, Reachable h1 s x →
        (CompositeShape.addShape h1 x p = some h2 ∨
          CompositeShape.removeShape h1 x p = some h2) →
        h2.get c = h1.get c ∧ shapeOf fuel h2 c = some t ∧
          Shape.draw fuel h2 c [] = Shape.draw fuel h1 c []) ∧
      (∀ ks h2, (∀ k ∈ ks, h.size ≤ k.target ∧ h.size ≤ k.arg) →
        CompositeCall.runAll ks h1 = some h2 →
        h2.get s = h.get s ∧ shapeOf fuel h2 s = some t ∧
          Shape.draw fuel h2 s [] = Shape.draw fuel h s []) ∧
      ∀ ks h2, (∀ k ∈ ks, k.target < h.size ∧ k.arg < h.size) →
        CompositeCall.runAll ks h1 = some h2 →
        h2.get c = h1.get c ∧ shapeOf fuel h2 c = some t ∧
          Shape.draw fuel h2 c [] = Shape.draw fuel h1 c [] := by
  obtain ⟨h1, c, hcl, hg, hc, hfc, hsc⟩ := Shape.clone_spec fuel h s t hs
  obtain ⟨o, ho⟩ := shapeOf_live hs
  obtain ⟨oc, hoc⟩ := shapeOf_live hsc
  have hold : ∀ h2 : Heap, Grows h h2 → h2.get s = h.get s ∧ shapeOf fuel h2 s = some t ∧
      Shape.draw fuel h2 s [] = Shape.draw fuel h s [] := by
    intro h2 hg2
    refine ⟨hg2.2 s (Heap.get_lt ho), shapeOf_grows hg2 hs, ?_⟩
    rw [Shape.draw_of_shapeOf h2 fuel s t [] (shapeOf_grows hg2 hs),
      Shape.draw_of_shapeOf h fuel s t [] hs]
  have hnew : ∀ h2 : Heap, (∀ a o, h.size ≤ a → h1.get a = some o → h2.get a = some o) →
      h2.get c = h1.get c ∧ shapeOf fuel h2 c = some t ∧
        Shape.draw fuel h2 c [] = Shape.draw fuel h1 c [] := by
    intro h2 hpres
    have hsc2 : shapeOf fuel h2 c = some t :=
      shapeOf_mono (fun a => h.size ≤ a) hfc hpres fuel c t hc hsc
    refine ⟨by rw [hpres c oc hc hoc, hoc], hsc2, ?_⟩
    rw [Shape.draw_of_shapeOf h2 fuel c t [] hsc2, Shape.draw_of_shapeOf h1 fuel c t [] hsc]
  refine ⟨h1, c, hcl, fun a hca => hca.fresh hfc hc, fun a hsa => (hsa.old hg fuel t hs).1,
    ?_, ?_, ?_, ?_, ?_⟩
  · intro a hca hsa
    exact absurd (hsa.old hg fuel t hs).1 (Nat.not_lt.mpr (hca.fresh hfc hc))
  · intro x p h2 hcx hm
    obtain ⟨cs, hx, hsize, hframe⟩ := CompositeShape.mutation_frame hm
    have hxn : h.size ≤ x := hcx.fresh hfc hc
    refine hold h2 ⟨by rw [hsize]; exact hg.1, fun a ha => ?_⟩
    rw [hframe a (Nat.ne_of_lt (Nat.lt_of_lt_of_le ha hxn))
      (fun hmem => absurd (hfc x cs hxn hx a hmem) (Nat.not_le.mpr ha))]
    exact hg.2 a ha
  · intro x p h2 hsx hm
    obtain ⟨cs, hx, hsize, hframe⟩ := CompositeShape.mutation_frame hm
    refine hnew h2 (fun a o ha hget => ?_)
    rw [hframe a (Nat.ne_of_gt (Nat.lt_of_lt_of_le (hsx.old hg fuel t hs).1 ha))
      (fun hmem => absurd ((hsx.tail hx hmem).old hg fuel t hs).1 (Nat.not_lt.mpr ha))]
    exact hget
  · intro ks h2 hks hrun
    obtain ⟨hsize, hframe⟩ := CompositeCall.runAll_frame (fun a => h.size ≤ a) ks h1 h2 hrun hks
    refine hold h2 ⟨by rw [hsize]; exact hg.1, fun a ha => ?_⟩
    rw [hframe a (Nat.not_le.mpr ha)]
    exact hg.2 a ha
  · intro ks h2 hks hrun
    obtain ⟨hsize, hframe⟩ := CompositeCall.runAll_frame (fun a => a < h.size) ks h1 h2 hrun hks
    refine hnew h2 (fun a o ha hget => ?_)
    rw [hframe a (Nat.not_lt.mpr ha)]
    exact hget

/-- A concrete free store: a Circle, a Square and a composite holding both. -/
theorem clone_structurally_equal_witness :
    shapeOf 2 ⟨[some .circle, some .square, some (.composite [0, 1])]⟩ 2 =
        some (.composite [.circle, .square]) ∧
      ∃ h1 c, Shape.clone 2 ⟨[some .circle, some .square, some (.composite [0, 1])]⟩ 2 =
          some (h1, c) ∧
        shapeOf 2 h1 c = some (.composite [.circle, .square]) := by
  refine ⟨rfl, ?_⟩
  obtain ⟨h1, c, hcl, hsc, _⟩ := clone_structurally_equal 2
    ⟨[some .circle, some .square, some (.composite [0, 1])]⟩ 2
    (.composite [.circle, .square]) rfl
  exact ⟨h1, c, hcl, hsc⟩

/-- A concrete free store: a composite holding a Circle and an empty composite. -/
theorem clone_independent_witness :
    shapeOf 2 ⟨[some .circle, some (.composite []), some (.composite [0, 1])]⟩ 2 =
        some (.composite [.circle, .composite []]) ∧
      ∃ h1 c, Shape.clone 2 ⟨[some .circle, some (.composite []), some (.composite [0, 1])]⟩ 2 =
          some (h1, c) ∧
        ∀ a, Reachable h1 c a → ¬ Reachable h1 2 a := by
  refine ⟨rfl, ?_⟩
  obtain ⟨h1, c, hcl, _, _, hdis, _⟩ := clone_independent 2
    ⟨[some .circle, some (.composite []), some (.composite [0, 1])]⟩ 2
    (.composite [.circle, .composite []]) rfl
  exact ⟨h1, c, hcl, hdis⟩

/-! ## C6: restoring a state -/

/-- C6: `Caretaker::restoreState` on a caretaker without mementos leaves the
shape sequence and the (empty) history as they are; on a caretaker whose
history ends with a memento `m` it removes exactly `m`, the one saved last,
and replaces the whole sequence by the shapes of `m`. -/
theorem restoreState_spec (shapes : List Addr) :
    Caretaker.restoreState ⟨[]⟩ shapes = (⟨[]⟩, shapes) ∧
      (∀ (ms : List Memento) (m : Memento),
        Caretaker.restoreState ⟨ms ++ [m]⟩ shapes = (⟨ms⟩, m.getShapes)) ∧
      ∀ (ct : Caretaker) (first last : List Addr),
        ((ct.saveState first).saveState last).restoreState shapes =
          (ct.saveState first, last) := by
  refine ⟨rfl, ?_, ?_⟩
  · intro ms m
    simp [Caretaker.restoreState]
  · intro ct first last
    simp [Caretaker.restoreState, Caretaker.saveState, Memento.getShapes]

/-! ## C7 and C8: removal by index -/

theorem getElem?_eraseIdx_of_lt {α : Type} :
    ∀ (l : List α) (i j : Nat), j < i → (l.eraseIdx i)[j]? = l[j]?
  | [], _, _, _ => by simp
  | _ :: _, 0, _, hj => by simp at hj
  | _ :: _, _ + 1, 0, _ => by simp
  | _ :: l, i + 1, j + 1, hj => by
    simpa using getElem?_eraseIdx_of_lt l i j (Nat.lt_of_succ_lt_succ hj)

theorem getElem?_eraseIdx_of_ge {α : Type} :
    ∀ (l : List α) (i j : Nat), i ≤ j → (l.eraseIdx i)[j]? = l[j + 1]?
  | [], _, _, _ => by simp
  | _ :: _, 0, _, _ => by simp
  | _ :: _, _ + 1, 0, hj => by simp at hj
  | _ :: l, i + 1, j + 1, hj => by
    simpa using getElem?_eraseIdx_of_ge l i j (Nat.le_of_succ_le_succ hj)

theorem toSizeT_natCast {i : Nat} (hi : i < 2 ^ 64) : toSizeT (i : Int) = i := by
  unfold toSizeT
  have h1 : ((i : Int) % 2 ^ 64) = (i : Int) := Int.emod_eq_of_lt (by omega) (by omega)
  rw [h1]
  simp

/-- Calling `removeShape(Shape*)` with the element at position `i` of a
sequence without repetition deletes that object and erases position `i`. -/
theorem SceneController.removeShape_getD {h : Heap} {self : SceneController} {i : Nat}
    (hi : i < self.shapes_.length) (hnd : self.shapes_.Nodup)
    (hlive : h.get (self.shapes_.getD i 0) ≠ none) :
    ∃ h1, h.delete (self.shapes_.getD i 0) = some h1 ∧
      self.removeShape h (self.shapes_.getD i 0) = some (h1, ⟨self.shapes_.eraseIdx i⟩) := by
  obtain ⟨o, ho⟩ := Option.ne_none_iff_exists'.mp hlive
  have hidx : self.shapes_.indexOf (self.shapes_.getD i 0) = i := by
    rw [List.getD_eq_getElem self.shapes_ 0 hi]
    exact List.indexOf_getElem hnd i hi
  have hd : h.delete (self.shapes_.getD i 0) =
      some ⟨h.cells.set (self.shapes_.getD i 0) none⟩ := by
    unfold Heap.delete
    rw [ho]
  refine ⟨_, hd, ?_⟩
  unfold SceneController.removeShape
  simp only [hidx, hi, if_true]
  rw [hd]

theorem SceneController.wellFormed_add {w : World} (hwf : SceneController.WellFormed w)
    (o : Obj) (out : List String) :
    SceneController.WellFormed
      ⟨(w.heap.alloc o).1, w.scene.addShape (w.heap.alloc o).2, out⟩ := by
  obtain ⟨hnd, hlive⟩ := hwf
  have hlt : ∀ s ∈ w.scene.shapes_, s < w.heap.size := by
    intro s hs
    obtain ⟨o1, ho1⟩ := Option.ne_none_iff_exists'.mp (hlive s hs)
    exact Heap.get_lt ho1
  refine ⟨?_, ?_⟩
  · simp only [SceneController.addShape, Heap.alloc_snd]
    refine List.Nodup.append hnd (List.nodup_singleton _) ?_
    intro a ha hb
    rw [List.mem_singleton] at hb
    subst hb
    exact absurd (hlt _ ha) (Nat.lt_irrefl _)
  · intro s hs
    simp only [SceneController.addShape, Heap.alloc_snd] at hs
    rcases List.mem_append.mp hs with hs | hs
    · rw [Heap.get_alloc_of_lt _ _ (hlt s hs)]
      exact hlive s hs
    · rw [List.mem_singleton] at hs
      subst hs
      rw [Heap.get_alloc_self]
      simp

/-- Every menu mutation runs on a scene that owns its shapes and leaves a
scene that owns its shapes. -/
theorem Mutation.menu_wellFormed {w : World} {m : Mutation}
    (hwf : SceneController.WellFormed w) (hmenu : m.isMenu = true) :
    ∃ w1, m.apply w = some w1 ∧ SceneController.WellFormed w1 := by
  cases m with
  | addCircle => exact ⟨_, rfl, SceneController.wellFormed_add hwf _ _⟩
  | addSquare => exact ⟨_, rfl, SceneController.wellFormed_add hwf _ _⟩
  | addCompositeShape => exact ⟨_, rfl, SceneController.wellFormed_add hwf _ _⟩
  | addChild _ _ => simp [Mutation.isMenu] at hmenu
  | removeChild _ _ => simp [Mutation.isMenu] at hmenu
  | removeShape index =>
    simp only [Mutation.apply, SceneController.removeShapeAt]
    by_cases hvalid : 0 ≤ index ∧ toSizeT index < w.scene.shapes_.length
    · rw [if_pos hvalid]
      have hi := hvalid.2
      have hmem : w.scene.shapes_.getD (toSizeT index) 0 ∈ w.scene.shapes_ := by
        rw [List.getD_eq_getElem w.scene.shapes_ 0 hi]
        exact List.getElem_mem _
      obtain ⟨h1, hd, hrm⟩ := SceneController.removeShape_getD hi hwf.1 (hwf.2 _ hmem)
      rw [hrm]
      refine ⟨_, rfl, List.Nodup.eraseIdx _ hwf.1, ?_⟩
      intro s hs
      obtain ⟨j, hj, hne, hsj⟩ := List.mem_eraseIdx_iff_getElem.mp hs
      have hne1 : s ≠ w.scene.shapes_.getD (toSizeT index) 0 := by
        rw [List.getD_eq_getElem w.scene.shapes_ 0 hi, ← hsj]
        exact fun hEq => hne ((List.Nodup.getElem_inj_iff hwf.1).mp hEq)
      show h1.get s ≠ none
      rw [Heap.get_delete_of_ne hd hne1]
      exact hwf.2 s (List.mem_of_mem_eraseIdx hs)
    · rw [if_neg hvalid]
      exact ⟨_, rfl, hwf⟩

/-- Every state the menu reaches from the empty scene owns its shapes. -/
theorem Mutation.menu_reaches_wellFormed :
    ∀ (ms : List Mutation) (w : World), SceneController.WellFormed w →
      (∀ m ∈ ms, m.isMenu = true) →
      ∃ w1, Mutation.applyAll ms w = some w1 ∧ SceneController.WellFormed w1
  | [], w, hwf, _ => ⟨w, rfl, hwf⟩
  | m :: ms, w, hwf, hmenu => by
    obtain ⟨w2, hm, hwf2⟩ := Mutation.menu_wellFormed hwf (hmenu m (List.mem_cons_self _ _))
    obtain ⟨w1, hrun, hwf1⟩ := Mutation.menu_reaches_wellFormed ms w2 hwf2
      (fun m1 hm1 => hmenu m1 (List.mem_cons_of_mem _ hm1))
    exact ⟨w1, by rw [Mutation.applyAll, hm]; exact hrun, hwf1⟩

/-- C7: on a scene that owns its shapes (the top-level pointers are distinct
live objects, as in every state the menu reaches), the menu removal with an
index `i` in `[0, count)` succeeds and leaves `count - 1` shapes: those
formerly before position `i` stay in place and the one formerly at a
position `j > i` is now at position `j - 1`. -/
theorem removeShapeAt_shifts (w : World) (i : Nat) (hi : i < w.scene.shapes_.length)
    (hint : i < 2 ^ 31) (hwf : SceneController.WellFormed w) :
    ∃ w1, SceneController.removeShapeAt w (i : Int) = some w1 ∧
      w1.scene.shapes_ = w.scene.shapes_.eraseIdx i ∧
      w1.scene.shapes_.length = w.scene.shapes_.length - 1 ∧
      (∀ j, j < i → w1.scene.shapes_[j]? = w.scene.shapes_[j]?) ∧
      ∀ j, i < j → j < w.scene.shapes_.length →
        w1.scene.shapes_[j - 1]? = w.scene.shapes_[j]? := by
  have hsz : toSizeT (i : Int) = i := toSizeT_natCast (by omega)
  have hmem : w.scene.shapes_.getD i 0 ∈ w.scene.shapes_ := by
    rw [List.getD_eq_getElem w.scene.shapes_ 0 hi]
    exact List.getElem_mem _
  obtain ⟨h1, _, hrm⟩ := SceneController.removeShape_getD hi hwf.1 (hwf.2 _ hmem)
  refine ⟨⟨h1, ⟨w.scene.shapes_.eraseIdx i⟩, w.cout ++ [indexPrompt ++ "Shape deleted."]⟩,
    ?_, rfl, ?_, ?_, ?_⟩
  · unfold SceneController.removeShapeAt
    rw [hsz, if_pos ⟨Int.natCast_nonneg i, hi⟩, hrm]
  · exact List.length_eraseIdx_of_lt hi
  · intro j hj
    exact getElem?_eraseIdx_of_lt _ i j hj
  · intro j hj _
    have h1 := getElem?_eraseIdx_of_ge w.scene.shapes_ i (j - 1) (by omega)
    rw [Nat.sub_add_cancel (by omega)] at h1
    exact h1

/-- A scene of three shapes, index 1 removed: two shapes are left and the
one formerly at index 2 is at index 1. -/
theorem removeShapeAt_shifts_witness :
    ∃ w1, SceneController.removeShapeAt
        ⟨⟨[some .circle, some .square, some (.composite [])]⟩, ⟨[0, 1, 2]⟩, []⟩ (1 : Nat) =
          some w1 ∧
      w1.scene.shapes_ = [0, 2] := by
  obtain ⟨w1, hrm, hsh, _⟩ := removeShapeAt_shifts
    ⟨⟨[some .circle, some .square, some (.composite [])]⟩, ⟨[0, 1, 2]⟩, []⟩ 1
    (by decide) (by decide) ⟨by decide, by decide⟩
  exact ⟨w1, hrm, hsh⟩

/-- C8: for an `int` index outside `[0, count)` (negative, equal to `count`
or larger) the menu removal reports the invalid index and leaves the free
store and the shape sequence as they are. -/
theorem removeShapeAt_invalid (w : World) (index : Int)
    (hint : -(2 ^ 31) ≤ index ∧ index < 2 ^ 31)
    (hout : index < 0 ∨ (w.scene.shapes_.length : Int) ≤ index) :
    SceneController.removeShapeAt w index =
      some ⟨w.heap, w.scene, w.cout ++ [indexPrompt ++ "Invalid index. Please try again."]⟩ := by
  unfold SceneController.removeShapeAt
  rw [if_neg]
  rintro ⟨h0, hlt⟩
  rcases hout with hneg | hge
  · omega
  · have hcast : ((index.toNat : Nat) : Int) = index := Int.toNat_of_nonneg h0
    have hsz : toSizeT index = index.toNat := by
      rw [← hcast]
      exact toSizeT_natCast (by omega)
    rw [hsz] at hlt
    omega

/-- Index 3 on a scene of three shapes. -/
theorem removeShapeAt_invalid_witness :
    SceneController.removeShapeAt
        ⟨⟨[some .circle, some .square, some (.composite [])]⟩, ⟨[0, 1, 2]⟩, []⟩ 3 =
      some ⟨⟨[some .circle, some .square, some (.composite [])]⟩, ⟨[0, 1, 2]⟩,
        ["Enter the index of the shape to delete: Invalid index. Please try again."]⟩ :=
  removeShapeAt_invalid
    ⟨⟨[some .circle, some .square, some (.composite [])]⟩, ⟨[0, 1, 2]⟩, []⟩ 3
    (by decide) (by decide)

/-! ## C9 and C10: drawing -/

/-- C9: the lines a CompositeShape draws are the concatenation, in child
order, of the lines each child draws (nothing for an empty composite); the
lines `drawScene` writes are the concatenation, in top-level order, of the
lines of each top-level shape; for shapes with a structure this is the
depth-first, left-to-right sequence of the leaf patterns. -/
theorem draw_concatenation (fuel : Nat) (h : Heap) (out : List String) :
    (∀ p shapes_, h.get p = some (.composite shapes_) →
      Shape.draw (fuel + 1) h p out =
        (allSome (shapes_.map (fun c => Shape.draw fuel h c []))).map
          (fun ls => out ++ ls.flatten)) ∧
    (∀ p, h.get p = some (.composite []) → Shape.draw (fuel + 1) h p out = some out) ∧
    (∀ self : SceneController, self.drawScene fuel h out =
      (allSome (self.shapes_.map (fun c => Shape.draw fuel h c []))).map
        (fun ls => out ++ ls.flatten)) ∧
    ∀ (self : SceneController) (ts : List ShapeTree),
      shapesOf fuel h self.shapes_ = some ts →
        self.drawScene fuel h out = some (out ++ ShapeTree.renderAll ts) := by
  refine ⟨?_, ?_, ?_, ?_⟩
  · intro p shapes_ hg
    rw [Shape.draw, hg]
    exact drawLoop_cout (Shape.draw_cout h fuel) shapes_ out
  · intro p hg
    rw [Shape.draw, hg]
    rfl
  · intro self
    exact drawLoop_cout (Shape.draw_cout h fuel) self.shapes_ out
  · intro self ts hs
    exact SceneController.drawScene_of_shapesOf out hs

/-- A composite holding a Circle and a Square, drawn after one line of output. -/
theorem draw_concatenation_witness :
    Shape.draw 2 ⟨[some .circle, some .square, some (.composite [0, 1])]⟩ 2 ["Menu:"] =
      some (["Menu:"] ++ [Circle.lines, Square.lines].flatten) :=
  (draw_concatenation 1 ⟨[some .circle, some .square, some (.composite [0, 1])]⟩
    ["Menu:"]).1 2 [0, 1] rfl

/-- C10 as stated fails: on the end-to-end scene the Circle does not draw 4
lines, so the output is not 4 + 4 + (4 + 4) lines. -/
theorem render_size_counterexample :
    ¬ ∃ (w : World) (c sq : List String), endToEnd = some w ∧
      Shape.draw 1 w.heap 0 [] = some c ∧ Shape.draw 1 w.heap 1 [] = some sq ∧
      c.length = 4 ∧ sq.length = 4 ∧
      w.scene.drawScene 2 w.heap [] = some (c ++ sq ++ (c ++ sq)) := by
  rintro ⟨w, c, sq, hw, hc, _, hlen, _⟩
  have hw0 : endToEnd = some ⟨⟨[some .circle, some .square, some (.composite [3, 4]),
      some .circle, some .square]⟩, ⟨[0, 1, 2]⟩,
      ["Circle added.", "Square added.", "Composite Shape created."]⟩ := rfl
  rw [hw0] at hw
  injection hw with hw
  subst hw
  have hc0 : Shape.draw 1 ⟨[some .circle, some .square, some (.composite [3, 4]),
      some .circle, some .square]⟩ 0 [] = some Circle.lines := rfl
  rw [hc0] at hc
  injection hc with hc
  subst hc
  exact absurd hlen (by decide)

/-- C10, amended: a Circle draws exactly its 3 lines and a Square exactly its
4 lines, and the end-to-end scene draws the Circle's lines, the Square's
lines, and then for the composite the Circle's lines followed by the
Square's lines. -/
theorem render_size (fuel : Nat) (h : Heap) (p : Addr) (out : List String) :
    (h.get p = some .circle → Shape.draw (fuel + 1) h p out = some (out ++ Circle.lines)) ∧
    (h.get p = some .square → Shape.draw (fuel + 1) h p out = some (out ++ Square.lines)) ∧
    Circle.lines.length = 3 ∧ Square.lines.length = 4 ∧
    ∃ w, endToEnd = some w ∧
      w.scene.drawScene 2 w.heap [] =
        some (Circle.lines ++ Square.lines ++ (Circle.lines ++ Square.lines)) := by
  refine ⟨?_, ?_, rfl, rfl, _, rfl, rfl⟩
  · intro hg
    rw [Shape.draw, hg]
  · intro hg
    rw [Shape.draw, hg]

/-- A Circle drawn on an empty stream. -/
theorem render_size_witness :
    Shape.draw 1 ⟨[some .circle]⟩ 0 [] = some [" - -", "-   -", " - -"] :=
  (render_size 0 ⟨[some .circle]⟩ 0 []).1 rfl

/-! ## Cloning a sequence of shapes -/

theorem cloneAll_spec {fuel : Nat} {h : Heap} :
    ∀ (rest : List Addr) (tsRest : List ShapeTree) (hk : Heap) (acc : List Addr)
      (ts : List ShapeTree), Grows h hk → (∀ x ∈ acc, h.size ≤ x) → FreshClosed h.size hk →
      acc.Nodup → shapesOf fuel hk acc = some ts → shapesOf fuel h rest = some tsRest →
      ∃ h1 shapes, cloneAll fuel rest hk acc = some (h1, shapes) ∧ Grows h h1 ∧
        (∀ x ∈ shapes, h.size ≤ x) ∧ FreshClosed h.size h1 ∧ shapes.Nodup ∧
        shapesOf fuel h1 shapes = some (ts ++ tsRest)
  | [], tsRest, hk, acc, ts, hg, hfr, hcl, hnd, hacc, hr => by
    simp [shapesOf, allSome] at hr
    subst hr
    exact ⟨hk, acc, rfl, hg, hfr, hcl, hnd, by simpa using hacc⟩
  | s :: rest, tsRest, hk, acc, ts, hg, hfr, hcl, hnd, hacc, hr => by
    unfold shapesOf at hr
    rw [List.map_cons] at hr
    obtain ⟨t, ts1, ht, hr1, rfl⟩ := allSome_cons_eq_some hr
    obtain ⟨h1, c, hclone, hg1, hc, hfc, hsc⟩ :=
      Shape.clone_spec fuel hk s t (shapeOf_grows hg ht)
    have hcl1 : FreshClosed h.size h1 := by
      intro a cs ha hget b hb
      by_cases hlt : a < hk.size
      · rw [hg1.2 a hlt] at hget
        exact hcl a cs ha hget b hb
      · exact Nat.le_trans hg.1 (hfc a cs (Nat.le_of_not_lt hlt) hget b hb)
    have hfr1 : ∀ x ∈ acc ++ [c], h.size ≤ x := by
      intro x hx
      rcases List.mem_append.mp hx with hx | hx
      · exact hfr x hx
      · rw [List.mem_singleton] at hx
        subst hx
        exact Nat.le_trans hg.1 hc
    have hnd1 : (acc ++ [c]).Nodup := by
      refine List.Nodup.append hnd (List.nodup_singleton _) ?_
      intro a ha hb
      rw [List.mem_singleton] at hb
      subst hb
      obtain ⟨y, hy⟩ := allSome_map_mem acc ts hacc a ha
      obtain ⟨o, ho⟩ := shapeOf_live hy
      exact absurd (Heap.get_lt ho) (Nat.not_lt.mpr hc)
    have hacc1 : shapesOf fuel h1 (acc ++ [c]) = some (ts ++ [t]) := by
      refine allSome_map_append acc [c] ts [t] ?_ ?_
      · exact allSome_map_congr acc ts (fun a _ y hy => shapeOf_grows hg1 hy) hacc
      · rw [List.map_singleton]
        exact allSome_cons_of_some hsc rfl
    obtain ⟨h2, shapes, hall, hg2, hfr2, hcl2, hnd2, hs2⟩ :=
      cloneAll_spec rest ts1 h1 (acc ++ [c]) (ts ++ [t]) (hg.trans hg1) hfr1 hcl1 hnd1
        hacc1 hr1
    refine ⟨h2, shapes, ?_, hg2, hfr2, hcl2, hnd2, by simpa [List.append_assoc] using hs2⟩
    rw [cloneAll, hclone]
    exact hall

/-! ## C5: what a snapshot holds -/

/-- C5 as stated fails: the snapshot `saveState` pushes holds the very
shape instance of the live sequence it was given, and a later change of that
live shape changes the structure of what the snapshot restores. -/
theorem snapshot_independent_counterexample :
    (Caretaker.saveState ⟨[]⟩ oneComposite.scene.shapes_).mementos_ = [⟨[0]⟩] ∧
      ¬ (∀ m ∈ (Caretaker.saveState ⟨[]⟩ oneComposite.scene.shapes_).mementos_,
          ∀ a ∈ m.getShapes, a ∉ oneComposite.scene.shapes_) ∧
      shapesOf 2 oneComposite.heap
          ((Caretaker.saveState ⟨[]⟩ oneComposite.scene.shapes_).restoreState []).2 =
        some [.composite []] ∧
      ∃ w1, Mutation.apply oneComposite (.addChild 0 .circle) = some w1 ∧
        shapesOf 2 w1.heap
            ((Caretaker.saveState ⟨[]⟩ oneComposite.scene.shapes_).restoreState []).2 =
          some [.composite [.circle]] := by
  refine ⟨rfl, ?_, rfl, _, rfl, rfl⟩
  intro hall
  exact hall ⟨[0]⟩ (List.mem_singleton.mpr rfl) 0 (List.mem_singleton.mpr rfl)
    (List.mem_singleton.mpr rfl)

/-- C5, amended: the snapshot `saveState` pushes is a copy of the sequence of
pointers it is given: it holds the same shape instances in the same order,
earlier snapshots are untouched, and `restoreState` gives back that sequence
whatever the live sequence has become.  The snapshot is independent of the
live shapes when the caller hands over clones, as `saveScene` does: no object
reachable from such a snapshot is reachable from a live shape, and the
snapshot has the structure of the live sequence. -/
theorem saveState_snapshot (ct : Caretaker) (fuel : Nat) (h : Heap) (live : List Addr)
    (ts : List ShapeTree) (hs : shapesOf fuel h live = some ts) :
    (ct.saveState live).mementos_ = ct.mementos_ ++ [⟨live⟩] ∧
      (∀ later : List Addr, (ct.saveState live).restoreState later = (ct, live)) ∧
      ∃ h1 shapes, cloneAll fuel live h [] = some (h1, shapes) ∧
        (ct.saveState shapes).mementos_ = ct.mementos_ ++ [⟨shapes⟩] ∧
        shapesOf fuel h1 shapes = some ts ∧ shapesOf fuel h1 live = some ts ∧
        ∀ x ∈ shapes, ∀ s ∈ live, ∀ a, Reachable h1 x a → ¬ Reachable h1 s a := by
  refine ⟨rfl, ?_, ?_⟩
  · intro later
    simp [Caretaker.restoreState, Caretaker.saveState, Memento.getShapes]
  · obtain ⟨h1, shapes, hall, hg, hfr, hcl, _, hsh⟩ :=
      cloneAll_spec live ts h [] [] (Grows.refl h) (by simp)
        (fun a cs ha hget _ _ => absurd (Heap.get_lt hget) (Nat.not_lt.mpr ha))
        List.nodup_nil rfl hs
    refine ⟨h1, shapes, hall, rfl, by simpa using hsh, ?_, ?_⟩
    · exact allSome_map_congr live ts (fun a _ y hy => shapeOf_grows hg hy) hs
    · intro x hx s hsl a hxa hsa
      obtain ⟨t, ht⟩ := allSome_map_mem live ts hs s hsl
      exact absurd (hsa.old hg fuel t ht).1 (Nat.not_lt.mpr (hxa.fresh hcl (hfr x hx)))

/-- A live sequence of one composite holding a Circle. -/
theorem saveState_snapshot_witness :
    shapesOf 2 ⟨[some .circle, some (.composite [0])]⟩ [1] = some [.composite [.circle]] ∧
      ∃ h1 shapes, cloneAll 2 [1] ⟨[some .circle, some (.composite [0])]⟩ [] =
          some (h1, shapes) ∧
        ∀ x ∈ shapes, ∀ s ∈ [1], ∀ a, Reachable h1 x a → ¬ Reachable h1 s a := by
  refine ⟨rfl, ?_⟩
  obtain ⟨_, _, h1, shapes, hall, _, _, _, hdis⟩ :=
    saveState_snapshot ⟨[]⟩ 2 ⟨[some .circle, some (.composite [0])]⟩ [1]
      [.composite [.circle]] rfl
  exact ⟨h1, shapes, hall, hdis⟩

/-! ## C4: undo -/

theorem SceneController.removeShape_frame {h h1 : Heap} {self self1 : SceneController}
    {shape : Addr} (hr : self.removeShape h shape = some (h1, self1)) :
    h1.size = h.size ∧ ∀ a, a ≠ shape → h1.get a = h.get a := by
  unfold SceneController.removeShape at hr
  simp only at hr
  split at hr
  · rename_i hlt
    rw [getD_indexOf hlt] at hr
    split at hr
    · simp at hr
    · rename_i h2 hd
      simp at hr
      obtain ⟨rfl, _⟩ := hr
      exact ⟨Heap.size_delete hd, fun a hne => Heap.get_delete_of_ne hd hne⟩
  · simp at hr
    obtain ⟨rfl, _⟩ := hr
    exact ⟨rfl, fun _ _ => rfl⟩

/-- A mutation that touches only objects at addresses from `n` on leaves
every cell below `n` as it was. -/
theorem Mutation.apply_frame {n : Nat} {w w1 : World} {m : Mutation}
    (hm : m.apply w = some w1) (ht : ∀ a ∈ m.touches w, n ≤ a) (hn : n ≤ w.heap.size) :
    n ≤ w1.heap.size ∧ ∀ a, a < n → w1.heap.get a = w.heap.get a := by
  have halloc : ∀ o : Obj, n ≤ (w.heap.alloc o).1.size ∧
      ∀ a, a < n → (w.heap.alloc o).1.get a = w.heap.get a := fun o =>
    ⟨by rw [Heap.size_alloc]; exact Nat.le_succ_of_le hn,
      fun a ha => Heap.get_alloc_of_lt _ _ (Nat.lt_of_lt_of_le ha hn)⟩
  cases m with
  | addCircle =>
    simp [Mutation.apply] at hm
    subst hm
    exact halloc .circle
  | addSquare =>
    simp [Mutation.apply] at hm
    subst hm
    exact halloc .square
  | addCompositeShape =>
    simp [Mutation.apply] at hm
    subst hm
    exact halloc (.composite [])
  | removeShape index =>
    simp only [Mutation.apply, SceneController.removeShapeAt] at hm
    simp only [Mutation.touches] at ht
    split at hm
    · rename_i hvalid
      rw [if_pos hvalid] at ht
      split at hm
      · simp at hm
      · rename_i h1 scene1 hrm
        simp at hm
        subst hm
        obtain ⟨hsize, hget⟩ := SceneController.removeShape_frame hrm
        refine ⟨by rw [hsize]; exact hn, fun a ha => hget a ?_⟩
        exact Nat.ne_of_lt (Nat.lt_of_lt_of_le ha (ht _ (List.mem_singleton.mpr rfl)))
    · simp at hm
      subst hm
      exact ⟨hn, fun _ _ => rfl⟩
  | addChild composite kind =>
    simp only [Mutation.apply] at hm
    simp only [Mutation.touches] at ht
    split at hm
    · simp at hm
    · rename_i h1 hadd
      simp at hm
      subst hm
      obtain ⟨cs, _, rfl⟩ := CompositeShape.addShape_eq_some hadd
      refine ⟨by rw [Heap.size_set]; exact (halloc _).1, fun a ha => ?_⟩
      rw [Heap.get_set_of_ne _ _
        (Nat.ne_of_lt (Nat.lt_of_lt_of_le ha (ht _ (List.mem_singleton.mpr rfl))))]
      exact (halloc _).2 a ha
  | removeChild composite child =>
    simp only [Mutation.apply] at hm
    simp only [Mutation.touches] at ht
    split at hm
    · simp at hm
    · rename_i h1 hrm
      simp at hm
      subst hm
      obtain ⟨cs, _, hsize, hframe⟩ := CompositeShape.mutation_frame (Or.inr hrm)
      refine ⟨by rw [hsize]; exact hn, fun a ha => hframe a ?_ (fun _ => ?_)⟩
      · exact Nat.ne_of_lt (Nat.lt_of_lt_of_le ha (ht _ (by simp)))
      · exact Nat.ne_of_lt (Nat.lt_of_lt_of_le ha (ht _ (by simp)))

theorem Mutation.applyAll_frame {n : Nat} :
    ∀ (ms : List Mutation) (w w1 : World), Mutation.applyAll ms w = some w1 →
      Mutation.confined n ms w = true → n ≤ w.heap.size →
      n ≤ w1.heap.size ∧ ∀ a, a < n → w1.heap.get a = w.heap.get a
  | [], w, w1, hrun, _, hn => by
    simp [Mutation.applyAll] at hrun
    subst hrun
    exact ⟨hn, fun _ _ => rfl⟩
  | m :: ms, w, w1, hrun, hc, hn => by
    rw [Mutation.applyAll] at hrun
    rw [Mutation.confined] at hc
    cases hm : m.apply w with
    | none => simp [hm] at hrun
    | some w2 =>
      rw [hm] at hrun hc
      simp only [Bool.and_eq_true, List.all_eq_true, decide_eq_true_eq] at hc
      obtain ⟨hn2, hget2⟩ := Mutation.apply_frame hm hc.1 hn
      obtain ⟨hn1, hget1⟩ := Mutation.applyAll_frame ms w2 w1 hrun hc.2 hn2
      exact ⟨hn1, fun a ha => by rw [hget1 a ha, hget2 a ha]⟩

/-- C4 as stated fails.  The state of a scene holding one empty composite is
saved, a Circle is added to that composite, and the state is restored: the
scene then draws the Circle, while it drew nothing when the state was saved.
The state of a scene holding one Circle is saved, the Circle is removed with
the menu, and the state is restored: the restored pointer designates the
deleted Circle and drawing through it is undefined. -/
theorem undo_law_counterexample :
    (∃ w1, Mutation.applyAll [.addChild 0 .circle] oneComposite = some w1 ∧
      oneComposite.scene.drawScene 2 oneComposite.heap [] = some [] ∧
      SceneController.drawScene 2 w1.heap
          ⟨((Caretaker.saveState ⟨[]⟩ oneComposite.scene.shapes_).restoreState
            w1.scene.shapes_).2⟩ [] = some Circle.lines ∧
      SceneController.drawScene 2 w1.heap
          ⟨((Caretaker.saveState ⟨[]⟩ oneComposite.scene.shapes_).restoreState
            w1.scene.shapes_).2⟩ [] ≠ oneComposite.scene.drawScene 2 oneComposite.heap []) ∧
    ∃ w2, Mutation.applyAll [.removeShape 0] oneCircle = some w2 ∧
      oneCircle.scene.drawScene 2 oneCircle.heap [] = some Circle.lines ∧
      SceneController.drawScene 2 w2.heap
          ⟨((Caretaker.saveState ⟨[]⟩ oneCircle.scene.shapes_).restoreState
            w2.scene.shapes_).2⟩ [] = none :=
  ⟨⟨_, rfl, rfl, rfl, by decide⟩, _, rfl, rfl, rfl⟩

/-- C4, amended: the state of a scene whose shapes have a structure is saved;
then any sequence of mutations is performed that touches only objects
created after the save (top-level additions, and removals or changes of
children on shapes added since); then the state is restored.  The restored
sequence is the saved one and the scene draws what it drew when the state
was saved. -/
theorem undo_law_confined (fuel : Nat) (w w1 : World) (ct : Caretaker) (ms : List Mutation)
    (ts : List ShapeTree) (hs : shapesOf fuel w.heap w.scene.shapes_ = some ts)
    (hc : Mutation.confined w.heap.size ms w = true)
    (hrun : Mutation.applyAll ms w = some w1) :
    (ct.saveState w.scene.shapes_).restoreState w1.scene.shapes_ = (ct, w.scene.shapes_) ∧
      w.scene.drawScene fuel w.heap [] = some (ShapeTree.renderAll ts) ∧
      SceneController.drawScene fuel w1.heap
          ⟨((ct.saveState w.scene.shapes_).restoreState w1.scene.shapes_).2⟩ [] =
        some (ShapeTree.renderAll ts) := by
  have hrestore : (ct.saveState w.scene.shapes_).restoreState w1.scene.shapes_ =
      (ct, w.scene.shapes_) := by
    simp [Caretaker.restoreState, Caretaker.saveState, Memento.getShapes]
  have hg : Grows w.heap w1.heap := Mutation.applyAll_frame ms w w1 hrun hc (Nat.le_refl _)
  have hs1 : shapesOf fuel w1.heap w.scene.shapes_ = some ts :=
    allSome_map_congr w.scene.shapes_ ts (fun a _ y hy => shapeOf_grows hg hy) hs
  refine ⟨hrestore, ?_, ?_⟩
  · simpa using @SceneController.drawScene_of_shapesOf w.heap fuel w.scene ts [] hs
  · rw [hrestore]
    simpa using @SceneController.drawScene_of_shapesOf w1.heap fuel ⟨w.scene.shapes_⟩ ts [] hs1

/-- The scene of one empty composite: after the save a Circle and a second
composite are added, the new composite gets a Square, and the Circle is
removed again. -/
theorem undo_law_confined_witness :
    ∃ w1, Mutation.applyAll
        [.addCircle, .addCompositeShape, .addChild 2 .square, .removeShape 1]
        oneComposite = some w1 ∧
      SceneController.drawScene 2 w1.heap
          ⟨((Caretaker.saveState ⟨[]⟩ oneComposite.scene.shapes_).restoreState
            w1.scene.shapes_).2⟩ [] = some [] :=
  ⟨_, rfl, (undo_law_confined 2 oneComposite _ ⟨[]⟩
    [.addCircle, .addCompositeShape, .addChild 2 .square, .removeShape 1]
    [.composite []] rfl rfl rfl).2.2⟩

/-! ## C3: what `saveScene` writes and what `loadScene` makes of it -/

theorem cloneAll_length {fuel : Nat} :
    ∀ (rest : List Addr) (h h1 : Heap) (acc shapes : List Addr),
      cloneAll fuel rest h acc = some (h1, shapes) → shapes.length = acc.length + rest.length
  | [], h, h1, acc, shapes, hc => by
    simp [cloneAll] at hc
    rw [← hc.2]
    rfl
  | s :: rest, h, h1, acc, shapes, hc => by
    rw [cloneAll] at hc
    split at hc
    · simp at hc
    · rename_i h2 copy _
      rw [cloneAll_length rest h2 h1 (acc ++ [copy]) shapes hc]
      simp
      omega

theorem writeAll_spec {h : Heap} :
    ∀ (shapes : List Addr) (file0 file : List Word), writeAll h shapes file0 = some file →
      ∃ recs, file = file0 ++ recs ∧ recs.length = shapes.length ∧
        ∀ r ∈ recs, ∃ k, r = Word.vptr k
  | [], file0, file, hw => by
    simp [writeAll] at hw
    exact ⟨[], by simp [hw], rfl, by simp⟩
  | s :: shapes, file0, file, hw => by
    rw [writeAll] at hw
    split at hw
    · simp at hw
    · rename_i file1 hw1
      unfold Shape.write at hw1
      split at hw1
      · simp at hw1
      · rename_i o _
        simp at hw1
        subst hw1
        obtain ⟨recs, hfile, hlen, hall⟩ := writeAll_spec shapes _ file hw
        refine ⟨Word.vptr o.kind :: recs, by simpa using hfile, by simp [hlen], ?_⟩
        intro r hr
        rcases List.mem_cons.mp hr with rfl | hr
        · exact ⟨_, rfl⟩
        · exact hall r hr

theorem writeAll_total {h : Heap} :
    ∀ (shapes : List Addr) (file0 : List Word), (∀ x ∈ shapes, h.get x ≠ none) →
      ∃ file, writeAll h shapes file0 = some file
  | [], file0, _ => ⟨file0, rfl⟩
  | x :: shapes, file0, hlive => by
    obtain ⟨o, ho⟩ := Option.ne_none_iff_exists'.mp (hlive x (List.mem_cons_self _ _))
    obtain ⟨file, hfile⟩ := writeAll_total shapes (file0 ++ [Word.vptr o.kind])
      (fun y hy => hlive y (List.mem_cons_of_mem _ hy))
    exact ⟨file, by rw [writeAll, Shape.write, ho]; exact hfile⟩

theorem deleteAll_total :
    ∀ (shapes : List Addr) (h : Heap), shapes.Nodup → (∀ x ∈ shapes, h.get x ≠ none) →
      ∃ h2, deleteAll shapes h = some h2
  | [], h, _, _ => ⟨h, rfl⟩
  | x :: shapes, h, hnd, hlive => by
    obtain ⟨o, ho⟩ := Option.ne_none_iff_exists'.mp (hlive x (List.mem_cons_self _ _))
    have hd : h.delete x = some ⟨h.cells.set x none⟩ := by
      unfold Heap.delete
      rw [ho]
    obtain ⟨hx, hnd1⟩ := List.nodup_cons.mp hnd
    obtain ⟨h2, h2eq⟩ := deleteAll_total shapes ⟨h.cells.set x none⟩ hnd1 (by
      intro y hy
      rw [Heap.get_delete_of_ne hd (fun hEq => hx (hEq ▸ hy))]
      exact hlive y (List.mem_cons_of_mem _ hy))
    exact ⟨h2, by rw [deleteAll, hd]; exact h2eq⟩

/-- On a scene whose shapes have a structure `saveScene` returns. -/
theorem SceneController.saveScene_total (fuel : Nat) (rep : Caretaker → List Word)
    (filename : String) (w : World) (ts : List ShapeTree)
    (hs : shapesOf fuel w.heap w.scene.shapes_ = some ts) :
    ∃ w1 file, SceneController.saveScene fuel rep filename w = some (w1, file) ∧
      w1.scene = w.scene := by
  obtain ⟨h1, shapes, hall, _, _, _, hnd, hsh⟩ :=
    cloneAll_spec w.scene.shapes_ ts w.heap [] [] (Grows.refl _) (by simp)
      (fun a cs ha hget _ _ => absurd (Heap.get_lt hget) (Nat.not_lt.mpr ha))
      List.nodup_nil rfl hs
  have hlive : ∀ x ∈ shapes, h1.get x ≠ none := by
    intro x hx
    obtain ⟨y, hy⟩ := allSome_map_mem shapes _ hsh x hx
    obtain ⟨o, ho⟩ := shapeOf_live hy
    rw [ho]
    simp
  obtain ⟨file, hfile⟩ := writeAll_total shapes (rep (Caretaker.saveState ⟨[]⟩ shapes)) hlive
  obtain ⟨h2, hdel⟩ := deleteAll_total shapes h1 hnd hlive
  refine ⟨⟨h2, w.scene, w.cout ++ ["Scene saved to file: " ++ filename]⟩, file, ?_, rfl⟩
  unfold SceneController.saveScene
  rw [hall]
  simp only
  rw [hfile]
  simp only
  rw [hdel]

/-- The file `saveScene` wrote for a scene that is not empty holds, after the
bytes of the caretaker, one virtual-table pointer per top-level shape, and
`loadScene` on it is undefined. -/
theorem SceneController.loadScene_of_saveScene (fuel n : Nat) (rep : Caretaker → List Word)
    (unrep : List Word → Option Caretaker) (filename : String) (w w1 : World)
    (file : List Word) (hne : w.scene.shapes_ ≠ []) (hrep : ∀ c, (rep c).length = n)
    (hsave : SceneController.saveScene fuel rep filename w = some (w1, file)) :
    (file.drop n).length = w.scene.shapes_.length ∧
      (∀ r ∈ file.drop n, ∃ k, r = Word.vptr k) ∧
      ∀ fuel1 filename1, SceneController.loadScene fuel1 n unrep filename1 w1 file = none := by
  unfold SceneController.saveScene at hsave
  split at hsave
  · simp at hsave
  · rename_i h1 shapes hclone
    split at hsave
    · simp at hsave
    · rename_i file1 hwrite
      split at hsave
      · simp at hsave
      · rename_i h2 _
        simp at hsave
        obtain ⟨_, rfl⟩ := hsave
        obtain ⟨recs, rfl, hlen, hall⟩ := writeAll_spec shapes _ _ hwrite
        have hshapes : shapes.length = w.scene.shapes_.length := by
          simpa using cloneAll_length _ _ _ _ _ hclone
        have hdrop : (rep (Caretaker.saveState ⟨[]⟩ shapes) ++ recs).drop n = recs := by
          rw [← hrep (Caretaker.saveState ⟨[]⟩ shapes)]
          exact List.drop_left _ _
        rw [hdrop]
        refine ⟨by rw [hlen, hshapes], hall, ?_⟩
        intro fuel1 filename1
        unfold SceneController.loadScene
        rw [hdrop]
        cases recs with
        | nil =>
          exfalso
          apply hne
          apply List.eq_nil_of_length_eq_zero
          rw [← hshapes, ← hlen]
          rfl
        | cons r recs =>
          obtain ⟨k, rfl⟩ := hall r (List.mem_cons_self _ _)
          split
          · rfl
          · simp [loadLoop, Word.shape]

/-- C3: the code does not have the round-trip property.  For every scene
that is not empty and whose shapes have a structure, whatever bytes the
caretaker object has, `saveScene` returns and leaves the scene as it is; the
file it writes holds after the caretaker's bytes one word per top-level
shape, the virtual-table pointer of its class (nothing of a composite's
children); and `loadScene` on that file takes such a word for a pointer to
a shape: its behaviour is undefined and no scene is produced. -/
theorem saveScene_loadScene_undefined (fuel n : Nat) (rep : Caretaker → List Word)
    (unrep : List Word → Option Caretaker) (filename : String) (w : World)
    (ts : List ShapeTree) (hs : shapesOf fuel w.heap w.scene.shapes_ = some ts)
    (hne : w.scene.shapes_ ≠ []) (hrep : ∀ c, (rep c).length = n) :
    ∃ w1 file, SceneController.saveScene fuel rep filename w = some (w1, file) ∧
      w1.scene = w.scene ∧ (file.drop n).length = w.scene.shapes_.length ∧
      (∀ r ∈ file.drop n, ∃ k, r = Word.vptr k) ∧
      ∀ fuel1 filename1, SceneController.loadScene fuel1 n unrep filename1 w1 file = none := by
  obtain ⟨w1, file, hsave, hscene⟩ := SceneController.saveScene_total fuel rep filename w ts hs
  exact ⟨w1, file, hsave, hscene,
    SceneController.loadScene_of_saveScene fuel n rep unrep filename w w1 file hne hrep hsave⟩

/-- The scene of one Circle is saved and the file is loaded. -/
theorem saveScene_loadScene_undefined_witness :
    SceneController.saveScene 1 (fun _ => [.data 0, .data 0, .data 0]) "scene.bin" oneCircle =
        some (⟨⟨[some .circle, none]⟩, ⟨[0]⟩, ["Scene saved to file: scene.bin"]⟩,
          [.data 0, .data 0, .data 0, .vptr .circle]) ∧
      SceneController.loadScene 1 3 (fun _ => some ⟨[⟨[1]⟩]⟩) "scene.bin"
          ⟨⟨[some .circle, none]⟩, ⟨[0]⟩, ["Scene saved to file: scene.bin"]⟩
          [.data 0, .data 0, .data 0, .vptr .circle] = none := by
  obtain ⟨w1, file, hsave, _, _, _, hload⟩ :=
    saveScene_loadScene_undefined 1 3 (fun _ => [.data 0, .data 0, .data 0])
      (fun _ => some ⟨[⟨[1]⟩]⟩) "scene.bin" oneCircle [.circle] rfl (by decide) (fun _ => rfl)
  have hconcrete : SceneController.saveScene 1 (fun _ => [.data 0, .data 0, .data 0])
      "scene.bin" oneCircle =
      some (⟨⟨[some .circle, none]⟩, ⟨[0]⟩, ["Scene saved to file: scene.bin"]⟩,
        [.data 0, .data 0, .data 0, .vptr .circle]) := rfl
  rw [hconcrete] at hsave
  injection hsave with hsave
  injection hsave with hw hf
  subst hw
  subst hf
  exact ⟨hconcrete, hload 1 "scene.bin"⟩

end Pattern
